import Mathlib

/-!
Verification of the ordered hash table core declared in `src/ds/ds_htable.h`
(an insertion-ordered hash map: bucket arena + separate power-of-two lookup
index with collision chains, tombstone deletion and `min_deleted` tracking).

The header provides the data layout and the iteration / rehash / copy macros;
the table-level operations (`ds_htable_put`, `ds_htable_remove`, ...) are only
declared there, so they are modelled from the specification document, each
marked `Modelled from the spec:` in its doc comment.

Conventions of the shallow embedding:
* `uint32_t` indices and counters are `Nat`; the sentinel
  `DS_HTABLE_INVALID_INDEX` (`(uint32_t) -1`, the maximum `uint32_t`) is
  modelled out-of-band as `Option.none`, so `min_deleted = MIN(min_deleted, i)`
  becomes a minimum where `none` acts as infinity, exactly the role the
  all-ones sentinel plays in the C code.
* a `zval` key or value handle is an opaque element of a type with decidable
  equality; `Z_ISUNDEF(key)` (the tombstone marker) is `key = none`.
* the cached hash `Z_NEXT(bucket->key)` and the chain link
  `Z_NEXT(bucket->value)` are separate record fields `hash` and `chainNext`,
  matching the data-model section of the spec; `ZVAL_COPY` duplicates a zval's
  value and type but not its `u2` field, so copying the key/value handles
  leaves `hash` and `chainNext` untouched.
-/

set_option autoImplicit false

universe u v

/-- One bucket of the arena: key and value handles (`none` = destructed /
undefined), the cached hash (`DS_HTABLE_BUCKET_HASH`, stored in the key's
`Z_NEXT`) and the collision-chain link (`DS_HTABLE_BUCKET_NEXT`, stored in the
value's `Z_NEXT`; `none` models `DS_HTABLE_INVALID_INDEX`). -/
structure ds_htable_bucket (α : Type u) (β : Type v) where
  key : Option α
  value : Option β
  hash : Nat
  chainNext : Option Nat
deriving DecidableEq

instance (α : Type u) (β : Type v) : Inhabited (ds_htable_bucket α β) :=
  ⟨⟨none, none, 0, none⟩⟩

/-- The table struct `ds_htable` of the header: bucket buffer, separated
lookup table, `next` (next open buffer index), `size` (number of active
pairs), `capacity`, and `min_deleted` (lowest deleted buffer index, `none`
modelling `DS_HTABLE_INVALID_INDEX`). -/
structure ds_htable (α : Type u) (β : Type v) where
  buckets : List (ds_htable_bucket α β)
  lookup : List (Option Nat)
  next : Nat
  size : Nat
  capacity : Nat
  minDeleted : Option Nat
deriving DecidableEq

/-- `DS_HTABLE_MIN_CAPACITY` (must be a power of 2). -/
def DS_HTABLE_MIN_CAPACITY : Nat := 8

variable {α : Type u} {β : Type v}

/-- `DS_HTABLE_BUCKET_DELETED`: a bucket is deleted iff its key is undefined. -/
def DS_HTABLE_BUCKET_DELETED (b : ds_htable_bucket α β) : Bool :=
  b.key.isNone

/-- `DS_HTABLE_IS_PACKED`: a table is packed iff it has no deleted buckets,
tested as `size == next`. -/
def DS_HTABLE_IS_PACKED (t : ds_htable α β) : Prop :=
  t.size = t.next

instance (t : ds_htable α β) : Decidable (DS_HTABLE_IS_PACKED t) :=
  inferInstanceAs (Decidable (t.size = t.next))

/-- The bucket stored at arena index `i` (reading the buffer; out-of-range
reads never happen on well-formed tables and default to an undefined bucket). -/
def bucketAt (t : ds_htable α β) (i : Nat) : ds_htable_bucket α β :=
  t.buckets.getD i default

/-- `DS_HTABLE_BUCKET_LOOKUP`: start of the collision chain for hash `h`,
read from `lookup[h & (capacity - 1)]`. -/
def DS_HTABLE_BUCKET_LOOKUP (t : ds_htable α β) (h : Nat) : Option Nat :=
  t.lookup.getD (h &&& (t.capacity - 1)) none

/-- `DS_HTABLE_BUCKET_REHASH` on the bucket at arena index `idx`: read the
head of the chain for the bucket's cached hash under `mask`, set the bucket's
`chainNext` to that head, and overwrite the head with `idx` (head insertion /
unshift). -/
def DS_HTABLE_BUCKET_REHASH (t : ds_htable α β) (mask idx : Nat) : ds_htable α β :=
  let b := bucketAt t idx
  let slot := b.hash &&& mask
  { t with
    buckets := t.buckets.set idx { b with chainNext := t.lookup.getD slot none }
    lookup := t.lookup.set slot (some idx) }

/-- `DS_HTABLE_BUCKET_COPY`: copies a bucket's key and value handles (via
`ZVAL_COPY`, which duplicates the zval's value and type but not its `u2`
field) and assigns the cached hash; the destination's `chainNext`
(`Z_NEXT(value)`) is not written. -/
def DS_HTABLE_BUCKET_COPY (dst src : ds_htable_bucket α β) : ds_htable_bucket α β :=
  { dst with key := src.key, value := src.value, hash := src.hash }

/-- `DS_HTABLE_BUCKET_DELETE`: destruct and undefine both value and key, and
set the chain link to the invalid index. The cached hash field is the key
zval's `u2`, which undefining does not clear. -/
def DS_HTABLE_BUCKET_DELETE (b : ds_htable_bucket α β) : ds_htable_bucket α β :=
  { b with key := none, value := none, chainNext := none }

/-- `DS_HTABLE_FOREACH_BUCKET`: walk the arena from index 0 up to (excluding)
`next` in ascending order, skipping deleted buckets. -/
def DS_HTABLE_FOREACH_BUCKET_list (t : ds_htable α β) : List (ds_htable_bucket α β) :=
  (t.buckets.take t.next).filter (fun b => !DS_HTABLE_BUCKET_DELETED b)

/-- Collect the first `n` non-deleted buckets of a buffer (the loop body of
`DS_HTABLE_FOREACH`, which counts live buckets with `_i < _n` and advances
`_b` unconditionally, skipping deleted buckets). -/
def takeLive : Nat → List (ds_htable_bucket α β) → List (ds_htable_bucket α β)
  | 0, _ => []
  | _ + 1, [] => []
  | n + 1, b :: tl =>
    if DS_HTABLE_BUCKET_DELETED b then takeLive (n + 1) tl
    else b :: takeLive n tl

/-- `DS_HTABLE_FOREACH`: walk the buffer from the start, skipping deleted
buckets, stopping once `size` live buckets have been visited. -/
def DS_HTABLE_FOREACH_list (t : ds_htable α β) : List (ds_htable_bucket α β) :=
  takeLive t.size t.buckets

/-- The (key, value) pairs of a table in forward-iteration order: ascending
arena order of the live buckets. -/
def htable_pairs (t : ds_htable α β) : List (α × β) :=
  (DS_HTABLE_FOREACH_BUCKET_list t).filterMap
    (fun b => b.key.bind (fun k => b.value.map (fun v => (k, v))))

/-- The keys of a table in forward-iteration order. -/
def htable_keys (t : ds_htable α β) : List α :=
  (htable_pairs t).map Prod.fst

/-- Modelled from the spec: `ds_htable()` is declared in the header but
defined in the missing translation unit; per the spec a table is created
empty at minimum capacity, with an all-invalid lookup table. -/
def ds_htable_new (α : Type u) (β : Type v) : ds_htable α β :=
  { buckets := List.replicate DS_HTABLE_MIN_CAPACITY default
    lookup := List.replicate DS_HTABLE_MIN_CAPACITY none
    next := 0
    size := 0
    capacity := DS_HTABLE_MIN_CAPACITY
    minDeleted := none }

/-- Chain walk by key equality: follow `chainNext` links from a chain head
until a bucket with an equal key is found or the invalid index ends the
chain. `fuel` bounds the walk (a well-formed chain is shorter than
`next + 1`, so the fuel is never exhausted on well-formed tables). -/
def ds_htable_lookup_loop [DecidableEq α] (buckets : List (ds_htable_bucket α β))
    (k : α) : Nat → Option Nat → Option Nat
  | 0, _ => none
  | _ + 1, none => none
  | fuel + 1, some idx =>
    match buckets.get? idx with
    | none => none
    | some b =>
      if b.key = some k then some idx
      else ds_htable_lookup_loop buckets k fuel b.chainNext

/-- Modelled from the spec: `ds_htable_lookup_by_key` (declared only) —
compute the key's hash, find the chain head via the lookup table, and walk
the chain by key equality. Returns the arena index of the matching bucket. -/
def ds_htable_lookup_by_key [DecidableEq α] (hf : α → Nat) (t : ds_htable α β)
    (k : α) : Option Nat :=
  ds_htable_lookup_loop t.buckets k (t.next + 1) (DS_HTABLE_BUCKET_LOOKUP t (hf k))

/-- Modelled from the spec: `ds_htable_has_key` — chain walk by equality. -/
def ds_htable_has_key [DecidableEq α] (hf : α → Nat) (t : ds_htable α β) (k : α) : Bool :=
  (ds_htable_lookup_by_key hf t k).isSome

/-- Modelled from the spec: `ds_htable_get` — chain walk by equality,
returning the found bucket's value (typed absence on a missing key). -/
def ds_htable_get [DecidableEq α] (hf : α → Nat) (t : ds_htable α β) (k : α) : Option β :=
  (ds_htable_lookup_by_key hf t k).bind (fun i => (bucketAt t i).value)

/-- Modelled from the spec: the rehash procedure shared by growth and
compaction — reset the lookup table to all-invalid, then iterate live buckets
in ascending arena order and head-insert each into its new chain
(`DS_HTABLE_BUCKET_REHASH`). -/
def ds_htable_rehash (t : ds_htable α β) : ds_htable α β :=
  (List.range t.next).foldl
    (fun s i =>
      if DS_HTABLE_BUCKET_DELETED (bucketAt s i) then s
      else DS_HTABLE_BUCKET_REHASH s (s.capacity - 1) i)
    { t with lookup := List.replicate t.capacity none }

/-- Modelled from the spec: capacity growth — double the capacity, grow the
arena in lockstep (new slots uninitialized), rebuild the lookup index from
scratch and rehash live buckets in ascending arena order. -/
def ds_htable_double_capacity (t : ds_htable α β) : ds_htable α β :=
  let cap := t.capacity * 2
  ds_htable_rehash
    { t with
      capacity := cap
      buckets := t.buckets ++ List.replicate (cap - t.buckets.length) default }

/-- Modelled from the spec: `ds_htable_put` — compute the key's hash and walk
its chain; if an equal key is found, replace that bucket's value in place
(size and order unchanged). Otherwise acquire a slot: if `min_deleted` is a
valid tombstone index, reuse that slot and re-scan forward from
`min_deleted + 1` for the next tombstone (invalid if the arena is now
packed); otherwise grow if the arena is full, then append at `next` and
increment `next`. The new bucket stores the key, value and hash, and is
head-inserted into its chain; `size` is incremented. -/
def ds_htable_put [DecidableEq α] (hf : α → Nat) (t : ds_htable α β)
    (k : α) (v : β) : ds_htable α β :=
  match ds_htable_lookup_by_key hf t k with
  | some i =>
    { t with buckets := t.buckets.set i { bucketAt t i with value := some v } }
  | none =>
    match t.minDeleted with
    | some d =>
      let h := hf k
      let slot := h &&& (t.capacity - 1)
      let buckets := t.buckets.set d
        { key := some k, value := some v, hash := h,
          chainNext := t.lookup.getD slot none }
      { t with
        buckets := buckets
        lookup := t.lookup.set slot (some d)
        size := t.size + 1
        minDeleted :=
          (List.range' (d + 1) (t.next - (d + 1))).find?
            (fun i => DS_HTABLE_BUCKET_DELETED (buckets.getD i default)) }
    | none =>
      let t := if t.next = t.capacity then ds_htable_double_capacity t else t
      let h := hf k
      let slot := h &&& (t.capacity - 1)
      { t with
        buckets := t.buckets.set t.next
          { key := some k, value := some v, hash := h,
            chainNext := t.lookup.getD slot none }
        lookup := t.lookup.set slot (some t.next)
        next := t.next + 1
        size := t.size + 1 }

/-- Chain walk by key equality that also reports the predecessor of the
matching bucket within its chain (`none` when the match is the chain head);
used by removal to patch the chain. -/
def ds_htable_remove_loop [DecidableEq α] (buckets : List (ds_htable_bucket α β))
    (k : α) : Nat → Option Nat → Option Nat → Option (Nat × Option Nat)
  | 0, _, _ => none
  | _ + 1, none, _ => none
  | fuel + 1, some idx, prev =>
    match buckets.get? idx with
    | none => none
    | some b =>
      if b.key = some k then some (idx, prev)
      else ds_htable_remove_loop buckets k fuel b.chainNext (some idx)

/-- Modelled from the spec: `ds_htable_remove` — chain walk to locate the
bucket; if found, unlink it from its chain (patch the predecessor's
`chainNext`, or the lookup head if it is the chain head), tombstone it
(`DS_HTABLE_BUCKET_DELETE`), decrement `size`, set
`min_deleted = min(min_deleted, index)`, and return the removed value;
otherwise signal not-found. -/
def ds_htable_remove [DecidableEq α] (hf : α → Nat) (t : ds_htable α β)
    (k : α) : ds_htable α β × Option β :=
  let slot := hf k &&& (t.capacity - 1)
  match ds_htable_remove_loop t.buckets k (t.next + 1) (t.lookup.getD slot none) none with
  | none => (t, none)
  | some (i, prev) =>
    let bi := bucketAt t i
    let t1 :=
      match prev with
      | none => { t with lookup := t.lookup.set slot bi.chainNext }
      | some p =>
        { t with buckets := t.buckets.set p { bucketAt t p with chainNext := bi.chainNext } }
    ({ t1 with
        buckets := t1.buckets.set i (DS_HTABLE_BUCKET_DELETE bi)
        size := t.size - 1
        minDeleted := some (t.minDeleted.elim i (min i)) },
      bi.value)

/-- Modelled from the spec: `ds_htable_lookup_by_position` — fails with an
out-of-range condition if `position >= size`; on a packed table the bucket is
at arena index `position`, otherwise positional counting skips tombstones. -/
def ds_htable_lookup_by_position (t : ds_htable α β) (position : Nat) :
    Option (ds_htable_bucket α β) :=
  if t.size ≤ position then none
  else if t.size = t.next then t.buckets.get? position
  else (DS_HTABLE_FOREACH_BUCKET_list t).get? position

/-- Modelled from the spec: rebuild a fresh table by repeated `put` of a pair
list in order (the shape of clone, set algebra results and unserialize). -/
def ds_htable_from_pairs [DecidableEq α] (hf : α → Nat)
    (l : List (α × β)) : ds_htable α β :=
  l.foldl (fun t kv => ds_htable_put hf t kv.1 kv.2) (ds_htable_new α β)

/-- Modelled from the spec: `ds_htable_clone` — a fresh packed table with the
same entries in the same order, independent value copies. -/
def ds_htable_clone [DecidableEq α] (hf : α → Nat) (t : ds_htable α β) : ds_htable α β :=
  ds_htable_from_pairs hf (htable_pairs t)

/-- Modelled from the spec: `ds_htable_merge` — clone the first table, then
`put` every entry of the second in iteration order (entries of `b` overwrite
entries of `a` on key collision, otherwise append at the end in `b`'s order). -/
def ds_htable_merge [DecidableEq α] (hf : α → Nat) (a b : ds_htable α β) : ds_htable α β :=
  (htable_pairs b).foldl (fun t kv => ds_htable_put hf t kv.1 kv.2)
    (ds_htable_clone hf a)

/-- Modelled from the spec: `ds_htable_diff` — a new table of the entries of
`a` whose key is not in `b`, built by repeated `put` in `a`'s order. -/
def ds_htable_diff [DecidableEq α] (hf : α → Nat) (a b : ds_htable α β) : ds_htable α β :=
  ds_htable_from_pairs hf
    ((htable_pairs a).filter (fun kv => !ds_htable_has_key hf b kv.1))

/-- Modelled from the spec: `ds_htable_intersect` — a new table of the
entries of `a` whose key is also in `b`, values taken from `a`. -/
def ds_htable_intersect [DecidableEq α] (hf : α → Nat) (a b : ds_htable α β) : ds_htable α β :=
  ds_htable_from_pairs hf
    ((htable_pairs a).filter (fun kv => ds_htable_has_key hf b kv.1))

/-- Modelled from the spec: `ds_htable_xor` — a new table of the entries
whose key is in exactly one of the two tables, values from whichever side has
the key; survivors of `a` first, then survivors of `b`. -/
def ds_htable_xor [DecidableEq α] (hf : α → Nat) (a b : ds_htable α β) : ds_htable α β :=
  ds_htable_from_pairs hf
    ((htable_pairs a).filter (fun kv => !ds_htable_has_key hf b kv.1) ++
     (htable_pairs b).filter (fun kv => !ds_htable_has_key hf a kv.1))

/-- Modelled from the spec: `ds_htable_serialize` — a packed table encodes as
the pair count followed by the (key, value) pairs in insertion order; the
external per-value codec is abstracted as the identity on model values. -/
def ds_htable_serialize (t : ds_htable α β) : Nat × List (α × β) :=
  (t.size, htable_pairs t)

/-- Modelled from the spec: `ds_htable_unserialize` — check the encoded pair
count against the data (CorruptData on mismatch, modelled as `none`), then
reconstruct a table by repeated `put` in the encoded order. -/
def ds_htable_unserialize [DecidableEq α] (hf : α → Nat)
    (p : Nat × List (α × β)) : Option (ds_htable α β) :=
  if p.1 = p.2.length then some (ds_htable_from_pairs hf p.2) else none

/-- Modelled from the spec: `ds_htable_slice` — Python-style bounds: a
negative index counts from the end, a negative length stops that many entries
short of the end, and both clamp to the table bounds; the result is a new
table of the selected contiguous insertion-order range (built packed). -/
def ds_htable_slice [DecidableEq α] (hf : α → Nat) (t : ds_htable α β)
    (index length : Int) : ds_htable α β :=
  let n : Int := t.size
  let start : Int := if index < 0 then max 0 (n + index) else min index n
  let len : Int := if length < 0 then max 0 (n + length - start) else min length (n - start)
  ds_htable_from_pairs hf (((htable_pairs t).drop start.toNat).take len.toNat)

/-! ## Concrete scenario: insert a, b, c; remove b; insert d -/

/-- A concrete hash capability for string keys (any function works for the
model; this one maps the scenario's single-character keys to one slot,
exercising the collision chain). -/
def scenario_hash : String → Nat := String.length

/-- The spec's scenario: insert keys a, b, c with values 1, 2, 3; remove b;
insert d with value 4. -/
def scenario_table : ds_htable String Nat :=
  ds_htable_put scenario_hash
    ((ds_htable_remove scenario_hash
        (ds_htable_put scenario_hash
          (ds_htable_put scenario_hash
            (ds_htable_put scenario_hash (ds_htable_new String Nat) "a" 1)
            "b" 2)
          "c" 3)
        "b").1)
    "d" 4

/-! ## Chain, invariant and witness-table definitions -/

/-- A concrete table with a tombstone below `next` and a stale live-looking
bucket at a slot at or beyond `next` (which neither iteration may visit). -/
def c9_table : ds_htable String Nat :=
  { buckets :=
      [⟨some "a", some 1, 1, none⟩, ⟨none, none, 1, none⟩,
       ⟨some "c", some 3, 1, some 0⟩, ⟨some "junk", some 9, 1, none⟩]
    lookup := [none, some 2, none, none, none, none, none, none]
    next := 3
    size := 2
    capacity := 8
    minDeleted := some 1 }

/-- The collision chain starting at head `h` in buffer `B`: the list of arena
indices reached by following `chainNext` links until the invalid index. -/
inductive HtChain (B : List (ds_htable_bucket α β)) : Option Nat → List Nat → Prop
  | nil : HtChain B none []
  | cons {i : Nat} {b : ds_htable_bucket α β} {L : List Nat} :
      B[i]? = some b → HtChain B b.chainNext L → HtChain B (some i) (i :: L)

/-- The pure specification of the chain walk by key: the first chain index
whose bucket key equals `k`. -/
def chain_find [DecidableEq α] (B : List (ds_htable_bucket α β)) (k : α)
    (L : List Nat) : Option Nat :=
  L.find? (fun i => decide ((B.getD i default).key = some k))

/-- The pure specification of the removal walk: the first chain index whose
bucket key equals `k`, together with its predecessor in the chain. -/
def chain_find_prev [DecidableEq α] (B : List (ds_htable_bucket α β)) (k : α) :
    List Nat → Option Nat → Option (Nat × Option Nat)
  | [], _ => none
  | i :: L, prev =>
    if (B.getD i default).key = some k then some (i, prev)
    else chain_find_prev B k L (some i)

/-- Indices of the live (non-tombstoned) buckets below `next`, in ascending
arena order. -/
def liveIndices (t : ds_htable α β) : List Nat :=
  (List.range t.next).filter (fun i => !DS_HTABLE_BUCKET_DELETED (bucketAt t i))

/-- The lookup slot of a hash value: `hash & (capacity - 1)`. -/
def slotOf (t : ds_htable α β) (h : Nat) : Nat := h &&& (t.capacity - 1)

/-- The well-formedness invariant of a table, relative to the external hash
capability `hf`:
* buffer and lookup lengths track `capacity`, which is a power of two of at
  least `DS_HTABLE_MIN_CAPACITY`, and `next` never exceeds it;
* `size` counts the live buckets below `next`;
* live buckets hold a value and cache the hash of their key; keys are unique;
* every lookup slot heads a duplicate-free chain consisting of exactly the
  live buckets whose cached hash maps to that slot;
* `minDeleted` is the lowest deleted buffer index (`none` when packed). -/
structure WF (hf : α → Nat) (t : ds_htable α β) : Prop where
  lookup_len : t.lookup.length = t.capacity
  buckets_len : t.buckets.length = t.capacity
  cap_min : DS_HTABLE_MIN_CAPACITY ≤ t.capacity
  cap_pow : ∃ m, t.capacity = 2 ^ m
  next_le : t.next ≤ t.capacity
  size_eq : t.size = (liveIndices t).length
  live_value : ∀ i ∈ liveIndices t, ((bucketAt t i).value).isSome
  live_hash : ∀ i ∈ liveIndices t,
      ∃ k, (bucketAt t i).key = some k ∧ (bucketAt t i).hash = hf k
  key_uniq : ∀ i ∈ liveIndices t, ∀ j ∈ liveIndices t,
      (bucketAt t i).key = (bucketAt t j).key → i = j
  chains : ∀ slot, slot < t.capacity →
      ∃ L, HtChain t.buckets (t.lookup.getD slot none) L ∧ L.Nodup ∧
        (∀ i ∈ L, i ∈ liveIndices t ∧ slotOf t (bucketAt t i).hash = slot) ∧
        (∀ i ∈ liveIndices t, slotOf t (bucketAt t i).hash = slot → i ∈ L)
  min_del : t.minDeleted =
      (List.range t.next).find? (fun i => DS_HTABLE_BUCKET_DELETED (bucketAt t i))

/-- A chain segment: follow `chainNext` links from `h`, visiting exactly the
indices of `L`, leaving the link value `e` dangling at the end. -/
inductive HtChainSeg (B : List (ds_htable_bucket α β)) :
    Option Nat → List Nat → Option Nat → Prop
  | nil (h : Option Nat) : HtChainSeg B h [] h
  | cons {i : Nat} {b : ds_htable_bucket α β} {L : List Nat} {e : Option Nat} :
      B[i]? = some b → HtChainSeg B b.chainNext L e → HtChainSeg B (some i) (i :: L) e

/-- The table state built by the append arm of `ds_htable_put` (factored out
so that the direct-append branch and the grow-then-append branch share one
analysis). -/
def putAppendState (hf : α → Nat) (g : ds_htable α β) (k : α) (v : β) :
    ds_htable α β :=
  { g with
    buckets := g.buckets.set g.next
      { key := some k, value := some v, hash := hf k,
        chainNext := g.lookup.getD (hf k &&& (g.capacity - 1)) none }
    lookup := g.lookup.set (hf k &&& (g.capacity - 1)) (some g.next)
    next := g.next + 1
    size := g.size + 1 }

/-- Invariant of the rehash fold: after head-inserting the live buckets among
arena indices `0 .. m-1`, bucket data is untouched and every slot's chain
holds exactly the processed live indices hashing to it. -/
structure RehashInv (t0 : ds_htable α β) (m : Nat) (s : ds_htable α β) : Prop where
  cap : s.capacity = t0.capacity
  lookuplen : s.lookup.length = t0.capacity
  bucklen : s.buckets.length = t0.buckets.length
  nexts : s.next = t0.next
  sizes : s.size = t0.size
  mds : s.minDeleted = t0.minDeleted
  keys : ∀ j, (bucketAt s j).key = (bucketAt t0 j).key
  vals : ∀ j, (bucketAt s j).value = (bucketAt t0 j).value
  hashes : ∀ j, (bucketAt s j).hash = (bucketAt t0 j).hash
  chains : ∀ slot, slot < t0.capacity →
    ∃ L, HtChain s.buckets (s.lookup.getD slot none) L ∧ L.Nodup ∧
      (∀ i ∈ L, i < m ∧ ((bucketAt t0 i).key).isSome ∧
        (bucketAt t0 i).hash &&& (t0.capacity - 1) = slot) ∧
      (∀ i, i < m → ((bucketAt t0 i).key).isSome →
        (bucketAt t0 i).hash &&& (t0.capacity - 1) = slot → i ∈ L)

/-- First operand for the C6 witness: a one-entry table. -/
def c6_a : ds_htable String Nat :=
  ds_htable_from_pairs scenario_hash [("a", 1)]

/-- Second operand for the C6 witness: a one-entry table with a key disjoint
from those of `c6_a`. -/
def c6_b : ds_htable String Nat :=
  ds_htable_from_pairs scenario_hash [("bb", 2)]

/-! ## C1 -/

/-- C1 (counterexample): the claim expects forward iteration
`(a,1),(c,3),(d,4)` after removing b and inserting d, with the reinserted key
at the end of iteration order; but the spec's insert-slot selection reuses
the `min_deleted` tombstone slot (b's old arena slot 1), so iteration
actually yields `(a,1),(d,4),(c,3)`. -/
theorem remove_reinsert_end_counterexample :
    htable_pairs scenario_table = [("a", 1), ("d", 4), ("c", 3)] ∧
    htable_pairs scenario_table ≠ [("a", 1), ("c", 3), ("d", 4)] ∧
    scenario_table.size = 3 ∧
    ds_htable_has_key scenario_hash scenario_table "b" = false := by
    refine ⟨rfl, by decide, rfl, rfl⟩

/-! ## C10 -/

/-- C10: copying a bucket (`DS_HTABLE_BUCKET_COPY`) sets the destination's
key, value and cached hash to the source's, and leaves the destination's
`chainNext` unchanged — a copied bucket carries no chain membership until it
is separately rehashed into a table. -/
theorem bucket_copy_spec (dst src : ds_htable_bucket α β) :
    DS_HTABLE_BUCKET_COPY dst src =
      { key := src.key, value := src.value, hash := src.hash,
        chainNext := dst.chainNext } :=
  rfl

/-! ## C9: the two forward-iteration macros -/

/-- `DS_HTABLE_FOREACH` collects the first `n` live buckets of the buffer;
when a prefix of the buffer contains exactly `n` live buckets, that is the
filtered prefix. -/
theorem takeLive_eq_filter_take :
    ∀ (l : List (ds_htable_bucket α β)) (m n : Nat),
      ((l.take m).filter (fun b => !DS_HTABLE_BUCKET_DELETED b)).length = n →
      takeLive n l = (l.take m).filter (fun b => !DS_HTABLE_BUCKET_DELETED b)
  | [], m, n, h => by
    simp only [List.take_nil, List.filter_nil, List.length_nil] at h
    subst h
    simp [takeLive]
  | b :: tl, 0, n, h => by
    simp only [List.take_zero, List.filter_nil, List.length_nil] at h
    subst h
    simp [takeLive]
  | b :: tl, m + 1, n, h => by
    rw [List.take_succ_cons] at h ⊢
    by_cases hb : DS_HTABLE_BUCKET_DELETED b
    · rw [List.filter_cons_of_neg (by simp [hb])] at h ⊢
      match n, h with
      | 0, h => rw [List.length_eq_zero.mp h]; rfl
      | n + 1, h =>
        rw [show takeLive (n + 1) (b :: tl) = takeLive (n + 1) tl from by
          simp [takeLive, hb]]
        exact takeLive_eq_filter_take tl m (n + 1) h
    · rw [List.filter_cons_of_pos (by simp [hb])] at h ⊢
      match n, h with
      | n + 1, h =>
        rw [show takeLive (n + 1) (b :: tl) = b :: takeLive n tl from by
          simp [takeLive, hb]]
        exact congrArg (b :: ·) (takeLive_eq_filter_take tl m n (Nat.succ_injective h))

/-- C9: when `size` equals the number of non-deleted buckets among arena
slots `0 .. next-1`, the `DS_HTABLE_FOREACH` embedding (stop after counting
`size` live buckets) visits exactly the same buckets, in the same ascending
arena order, as the `DS_HTABLE_FOREACH_BUCKET` embedding (scan all slots
below `next`, skipping deleted buckets). -/
theorem foreach_equiv_foreach_bucket (t : ds_htable α β)
    (h : t.size =
      ((t.buckets.take t.next).filter (fun b => !DS_HTABLE_BUCKET_DELETED b)).length) :
    DS_HTABLE_FOREACH_list t = DS_HTABLE_FOREACH_BUCKET_list t :=
  takeLive_eq_filter_take t.buckets t.next t.size h.symm

/-- Witness for C9 at a concrete table. -/
theorem foreach_equiv_foreach_bucket_witness :
    (c9_table.size =
      ((c9_table.buckets.take c9_table.next).filter
        (fun b => !DS_HTABLE_BUCKET_DELETED b)).length) ∧
    DS_HTABLE_FOREACH_list c9_table = DS_HTABLE_FOREACH_BUCKET_list c9_table :=
  ⟨by decide, foreach_equiv_foreach_bucket c9_table (by decide)⟩

/-! ## Collision chains as index lists -/

theorem isChain_functional {B : List (ds_htable_bucket α β)} {h : Option Nat}
    {L M : List Nat} (hL : HtChain B h L) (hM : HtChain B h M) : L = M := by
  induction hL generalizing M with
  | nil => cases hM; rfl
  | cons hget hrest ih =>
    cases hM with
    | cons hget2 hrest2 =>
      rw [hget] at hget2
      cases hget2
      exact congrArg _ (ih hrest2)

/-- A chain is unaffected by buffer changes outside its own indices. -/
theorem isChain_congr {B B' : List (ds_htable_bucket α β)} {h : Option Nat}
    {L : List Nat} (hL : HtChain B h L) (hagree : ∀ i ∈ L, B'[i]? = B[i]?) :
    HtChain B' h L := by
  induction hL with
  | nil => exact HtChain.nil
  | cons hget hrest ih =>
    rename_i i b L
    exact HtChain.cons ((hagree i (List.mem_cons_self i L)).trans hget)
      (ih (fun j hj => hagree j (List.mem_cons_of_mem i hj)))

/-- Writing a bucket at an index outside a chain leaves the chain intact. -/
theorem isChain_set_of_notMem {B : List (ds_htable_bucket α β)} {h : Option Nat}
    {L : List Nat} {j : Nat} {nb : ds_htable_bucket α β}
    (hL : HtChain B h L) (hj : j ∉ L) : HtChain (B.set j nb) h L :=
  isChain_congr hL (fun i hi => List.getElem?_set_ne (fun e => hj (by rw [e]; exact hi)))

/-- A chain of distinct indices drawn from the first `n` buffer slots has at
most `n` entries. -/
theorem chain_length_le {L : List Nat} {n : Nat} (hnd : L.Nodup)
    (hmem : ∀ i ∈ L, i < n) : L.length ≤ n := by
  have hsub : L ⊆ List.range n := fun i hi => List.mem_range.mpr (hmem i hi)
  simpa using (List.subperm_of_subset hnd hsub).length_le

/-- The fuel-based chain walk computes `chain_find` whenever the fuel exceeds
the chain length. -/
theorem lookup_loop_eq_chain_find [DecidableEq α] {B : List (ds_htable_bucket α β)}
    {k : α} {h : Option Nat} {L : List Nat} (hc : HtChain B h L) :
    ∀ {fuel : Nat}, L.length < fuel →
      ds_htable_lookup_loop B k fuel h = chain_find B k L := by
  induction hc with
  | nil =>
    intro fuel hfuel
    match fuel, hfuel with
    | fuel + 1, _ => rfl
  | cons hget hrest ih =>
    rename_i i b L
    intro fuel hfuel
    match fuel, hfuel with
    | fuel + 1, hfuel =>
      have hgetD : B.getD i default = b := by
        rw [List.getD_eq_getElem?_getD, hget]; rfl
      by_cases hk : b.key = some k
      · simp [ds_htable_lookup_loop, List.get?_eq_getElem?, hget, hk, chain_find,
          List.find?_cons, hgetD]
      · have hrec := @ih fuel (Nat.lt_of_succ_lt_succ hfuel)
        simp only [ds_htable_lookup_loop, List.get?_eq_getElem?, hget, hk, if_false]
        simp only [chain_find, List.find?_cons, hgetD, hk, decide_False]
        exact hrec

/-- The fuel-based removal walk computes `chain_find_prev` whenever the fuel
exceeds the chain length. -/
theorem remove_loop_eq_chain_find_prev [DecidableEq α]
    {B : List (ds_htable_bucket α β)} {k : α} {h : Option Nat} {L : List Nat}
    (hc : HtChain B h L) :
    ∀ {fuel : Nat}, L.length < fuel → ∀ prev,
      ds_htable_remove_loop B k fuel h prev = chain_find_prev B k L prev := by
  induction hc with
  | nil =>
    intro fuel hfuel prev
    match fuel, hfuel with
    | fuel + 1, _ => rfl
  | cons hget hrest ih =>
    rename_i i b L
    intro fuel hfuel prev
    match fuel, hfuel with
    | fuel + 1, hfuel =>
      have hgetD : B.getD i default = b := by
        rw [List.getD_eq_getElem?_getD, hget]; rfl
      by_cases hk : b.key = some k
      · simp [ds_htable_remove_loop, List.get?_eq_getElem?, hget, hk,
          chain_find_prev, hgetD]
      · have hrec := @ih fuel (Nat.lt_of_succ_lt_succ hfuel) (some i)
        simp only [ds_htable_remove_loop, List.get?_eq_getElem?, hget, hk, if_false]
        simp only [chain_find_prev, hgetD, hk, if_false]
        exact hrec

/-! ## Well-formed tables -/

theorem slotOf_lt (t : ds_htable α β) (h : Nat) (hc : 0 < t.capacity) :
    slotOf t h < t.capacity :=
  Nat.lt_of_le_of_lt Nat.and_le_right (Nat.sub_lt hc Nat.one_pos)

theorem mem_liveIndices {t : ds_htable α β} {i : Nat} :
    i ∈ liveIndices t ↔ i < t.next ∧ (bucketAt t i).key.isSome := by
  simp [liveIndices, List.mem_filter, List.mem_range, DS_HTABLE_BUCKET_DELETED,
    Option.isNone_eq_false_iff]

theorem WF.cap_pos {hf : α → Nat} {t : ds_htable α β} (wf : WF hf t) :
    0 < t.capacity :=
  Nat.lt_of_lt_of_le (by norm_num [DS_HTABLE_MIN_CAPACITY]) wf.cap_min

theorem liveIndices_length_le (t : ds_htable α β) :
    (liveIndices t).length ≤ t.next := by
  simpa using List.length_filter_le _ (List.range t.next)

theorem WF.size_le_next {hf : α → Nat} {t : ds_htable α β} (wf : WF hf t) :
    t.size ≤ t.next :=
  wf.size_eq ▸ liveIndices_length_le t

/-! ## Iteration over live indices -/

theorem take_next_eq (t : ds_htable α β) (h : t.next ≤ t.buckets.length) :
    t.buckets.take t.next = (List.range t.next).map (fun i => bucketAt t i) := by
  apply List.ext_getElem
  · simp [Nat.min_eq_left h]
  · intro n h1 h2
    have hn : n < t.next := by simpa using h2
    rw [List.getElem_take, List.getElem_map, List.getElem_range]
    rw [bucketAt, List.getD_eq_getElem _ _ (Nat.lt_of_lt_of_le hn h)]

theorem foreach_bucket_eq_map (t : ds_htable α β) (h : t.next ≤ t.buckets.length) :
    DS_HTABLE_FOREACH_BUCKET_list t = (liveIndices t).map (fun i => bucketAt t i) := by
  rw [DS_HTABLE_FOREACH_BUCKET_list, take_next_eq t h, List.filter_map]
  rfl

theorem htable_pairs_eq (t : ds_htable α β) (h : t.next ≤ t.buckets.length) :
    htable_pairs t = (liveIndices t).filterMap
      (fun i => (bucketAt t i).key.bind
        (fun k => (bucketAt t i).value.map (fun v => (k, v)))) := by
  rw [htable_pairs, foreach_bucket_eq_map t h, List.filterMap_map]
  rfl

theorem WF.next_le_buckets {hf : α → Nat} {t : ds_htable α β} (wf : WF hf t) :
    t.next ≤ t.buckets.length :=
  wf.buckets_len ▸ wf.next_le

theorem mem_pairs_iff {hf : α → Nat} {t : ds_htable α β} (wf : WF hf t)
    {k : α} {v : β} :
    (k, v) ∈ htable_pairs t ↔
      ∃ i ∈ liveIndices t,
        (bucketAt t i).key = some k ∧ (bucketAt t i).value = some v := by
  rw [htable_pairs_eq t wf.next_le_buckets, List.mem_filterMap]
  constructor
  · rintro ⟨i, hi, hsome⟩
    refine ⟨i, hi, ?_⟩
    cases hk : (bucketAt t i).key with
    | none => rw [hk] at hsome; simp at hsome
    | some k0 =>
      cases hv : (bucketAt t i).value with
      | none => rw [hk, hv] at hsome; simp at hsome
      | some v0 =>
        rw [hk, hv] at hsome
        obtain ⟨rfl, rfl⟩ : k0 = k ∧ v0 = v := by simpa using hsome
        exact ⟨rfl, rfl⟩
  · rintro ⟨i, hi, hk, hv⟩
    exact ⟨i, hi, by rw [hk, hv]; rfl⟩

theorem mem_keys_iff {hf : α → Nat} {t : ds_htable α β} (wf : WF hf t) {k : α} :
    k ∈ htable_keys t ↔
      ∃ i ∈ liveIndices t, (bucketAt t i).key = some k := by
  rw [htable_keys, List.mem_map]
  constructor
  · rintro ⟨⟨k0, v0⟩, hmem, rfl⟩
    obtain ⟨i, hi, hk, _⟩ := (mem_pairs_iff wf).mp hmem
    exact ⟨i, hi, hk⟩
  · rintro ⟨i, hi, hk⟩
    obtain ⟨v, hv⟩ := Option.isSome_iff_exists.mp (wf.live_value i hi)
    exact ⟨(k, v), (mem_pairs_iff wf).mpr ⟨i, hi, hk, hv⟩, rfl⟩

/-! ## Lookup specification -/

theorem lookup_by_key_eq_some_iff [DecidableEq α] {hf : α → Nat}
    {t : ds_htable α β} (wf : WF hf t) {k : α} {i : Nat} :
    ds_htable_lookup_by_key hf t k = some i ↔
      i ∈ liveIndices t ∧ (bucketAt t i).key = some k := by
  obtain ⟨L, hL, hnd, hmem, hcomp⟩ :=
    wf.chains (slotOf t (hf k)) (slotOf_lt t (hf k) wf.cap_pos)
  have hlen : L.length < t.next + 1 :=
    Nat.lt_succ_of_le (chain_length_le hnd
      (fun j hj => (mem_liveIndices.mp (hmem j hj).1).1))
  have heq : ds_htable_lookup_by_key hf t k = chain_find t.buckets k L :=
    lookup_loop_eq_chain_find hL hlen
  rw [heq]
  constructor
  · intro hfind
    have hmemL : i ∈ L := List.mem_of_find?_eq_some hfind
    have hp := List.find?_some hfind
    exact ⟨(hmem i hmemL).1, by simpa [bucketAt] using hp⟩
  · rintro ⟨hlive, hkey⟩
    have hslot : slotOf t (bucketAt t i).hash = slotOf t (hf k) := by
      obtain ⟨k0, hk0, hh⟩ := wf.live_hash i hlive
      rw [hk0] at hkey
      cases hkey
      rw [hh]
    have hiL : i ∈ L := hcomp i hlive hslot
    cases hfind : chain_find t.buckets k L with
    | none =>
      rw [chain_find, List.find?_eq_none] at hfind
      exact absurd (by simpa [bucketAt] using hkey) (hfind i hiL)
    | some j =>
      have hjL : j ∈ L := List.mem_of_find?_eq_some hfind
      have hpj : (bucketAt t j).key = some k := by
        simpa [bucketAt] using List.find?_some hfind
      rw [wf.key_uniq j (hmem j hjL).1 i hlive (hpj.trans hkey.symm)]

theorem lookup_by_key_eq_none_iff [DecidableEq α] {hf : α → Nat}
    {t : ds_htable α β} (wf : WF hf t) {k : α} :
    ds_htable_lookup_by_key hf t k = none ↔
      ∀ i ∈ liveIndices t, (bucketAt t i).key ≠ some k := by
  constructor
  · intro hnone i hi hk
    have := (lookup_by_key_eq_some_iff wf).mpr ⟨hi, hk⟩
    rw [hnone] at this
    cases this
  · intro hall
    cases hfind : ds_htable_lookup_by_key hf t k with
    | none => rfl
    | some i =>
      obtain ⟨hi, hk⟩ := (lookup_by_key_eq_some_iff wf).mp hfind
      exact absurd hk (hall i hi)

theorem has_key_iff_mem_keys [DecidableEq α] {hf : α → Nat}
    {t : ds_htable α β} (wf : WF hf t) {k : α} :
    ds_htable_has_key hf t k = true ↔ k ∈ htable_keys t := by
  rw [ds_htable_has_key, Option.isSome_iff_exists, mem_keys_iff wf]
  constructor
  · rintro ⟨i, hfind⟩
    obtain ⟨hi, hk⟩ := (lookup_by_key_eq_some_iff wf).mp hfind
    exact ⟨i, hi, hk⟩
  · rintro ⟨i, hi, hk⟩
    exact ⟨i, (lookup_by_key_eq_some_iff wf).mpr ⟨hi, hk⟩⟩

theorem get_eq_some_iff [DecidableEq α] {hf : α → Nat} {t : ds_htable α β}
    (wf : WF hf t) {k : α} {v : β} :
    ds_htable_get hf t k = some v ↔
      ∃ i ∈ liveIndices t,
        (bucketAt t i).key = some k ∧ (bucketAt t i).value = some v := by
  rw [ds_htable_get]
  constructor
  · intro h
    obtain ⟨i, hfind, hv⟩ := Option.bind_eq_some.mp h
    obtain ⟨hi, hk⟩ := (lookup_by_key_eq_some_iff wf).mp hfind
    exact ⟨i, hi, hk, hv⟩
  · rintro ⟨i, hi, hk, hv⟩
    rw [(lookup_by_key_eq_some_iff wf).mpr ⟨hi, hk⟩]
    exact hv

/-! ## Small list utilities -/

theorem getD_set_self {γ : Type u} {B : List γ} {j : Nat} (h : j < B.length)
    (nb d : γ) : (B.set j nb).getD j d = nb := by
  rw [List.getD_eq_getElem?_getD, List.getElem?_set_self h]
  rfl

theorem getD_set_ne {γ : Type u} {B : List γ} {i j : Nat} (h : j ≠ i)
    (nb d : γ) : (B.set j nb).getD i d = B.getD i d := by
  rw [List.getD_eq_getElem?_getD, List.getElem?_set_ne h,
    ← List.getD_eq_getElem?_getD]

theorem getD_replicate_none {C s : Nat} :
    (List.replicate C (none : Option Nat)).getD s none = none := by
  rw [List.getD_eq_getElem?_getD, List.getElem?_replicate]
  split <;> rfl

theorem find?_congr_pred {γ : Type u} {p q : γ → Bool} :
    ∀ (l : List γ), (∀ a ∈ l, p a = q a) → l.find? p = l.find? q
  | [], _ => rfl
  | a :: l, h => by
    rw [List.find?_cons, List.find?_cons, ← h a (List.mem_cons_self a l)]
    cases hp : p a
    · exact find?_congr_pred l (fun b hb => h b (List.mem_cons_of_mem a hb))
    · rfl

theorem range_split {d n : Nat} (h : d < n) :
    List.range n = List.range d ++ d :: List.range' (d + 1) (n - (d + 1)) := by
  have hsum : (n - (d + 1)) + (d + 1) = n := Nat.sub_add_cancel h
  have happ := List.range'_append 0 (d + 1) (n - (d + 1)) 1
  simp only [Nat.zero_add, Nat.one_mul] at happ
  rw [hsum] at happ
  rw [List.range_eq_range', ← happ, ← List.range_eq_range', List.range_succ]
  simp

theorem find?_range_eq_some_of {p : Nat → Bool} {n d : Nat}
    (hd : d < n) (hp : p d = true) (hmin : ∀ i, i < d → p i = false) :
    (List.range n).find? p = some d := by
  induction n with
  | zero => omega
  | succ n ih =>
    rw [List.range_succ, List.find?_append]
    rcases Nat.lt_or_ge d n with hdn | hdn
    · rw [ih hdn]
      rfl
    · have hdn2 : d = n := Nat.le_antisymm (Nat.le_of_lt_succ hd) hdn
      subst hdn2
      have hnone : (List.range d).find? p = none := by
        rw [List.find?_eq_none]
        intro i hi
        simp [hmin i (List.mem_range.mp hi)]
      rw [hnone]
      simp [List.find?_cons, hp]

theorem find?_range_min {p : Nat → Bool} {n d : Nat}
    (h : (List.range n).find? p = some d) : ∀ i, i < d → p i = false := by
  induction n with
  | zero => simp at h
  | succ n ih =>
    rw [List.range_succ, List.find?_append] at h
    cases hfn : (List.range n).find? p with
    | some e =>
      rw [hfn] at h
      have h2 : some e = some d := h
      cases h2
      exact ih hfn
    | none =>
      rw [hfn] at h
      simp only [Option.none_or] at h
      have hd : d = n := by simpa using List.mem_of_find?_eq_some h
      subst hd
      intro i hi
      have := List.find?_eq_none.mp hfn i (List.mem_range.mpr hi)
      simpa using this

/-! ## Chain segments -/

theorem htChain_iff_seg_none {B : List (ds_htable_bucket α β)} {h : Option Nat}
    {L : List Nat} : HtChain B h L ↔ HtChainSeg B h L none := by
  constructor
  · intro hc
    induction hc with
    | nil => exact HtChainSeg.nil none
    | cons hget hrest ih => exact HtChainSeg.cons hget ih
  · intro hs
    generalize he : (none : Option Nat) = e at hs
    induction hs with
    | nil h => rw [← he]; exact HtChain.nil
    | cons hget hrest ih => exact HtChain.cons hget (ih he)

theorem htChainSeg_append_iff {B : List (ds_htable_bucket α β)}
    {h e : Option Nat} {L₁ L₂ : List Nat} :
    HtChainSeg B h (L₁ ++ L₂) e ↔
      ∃ m, HtChainSeg B h L₁ m ∧ HtChainSeg B m L₂ e := by
  induction L₁ generalizing h with
  | nil =>
    simp only [List.nil_append]
    constructor
    · intro hs
      exact ⟨h, HtChainSeg.nil h, hs⟩
    · rintro ⟨m, hm, hs⟩
      cases hm
      exact hs
  | cons i L₁ ih =>
    constructor
    · intro hs
      cases hs with
      | cons hget hrest =>
        obtain ⟨m, h1, h2⟩ := ih.mp hrest
        exact ⟨m, HtChainSeg.cons hget h1, h2⟩
    · rintro ⟨m, hm, hs⟩
      cases hm with
      | cons hget hrest =>
        exact HtChainSeg.cons hget (ih.mpr ⟨m, hrest, hs⟩)

theorem htChainSeg_congr {B B' : List (ds_htable_bucket α β)} {h e : Option Nat}
    {L : List Nat} (hs : HtChainSeg B h L e)
    (hagree : ∀ i ∈ L, B'[i]? = B[i]?) : HtChainSeg B' h L e := by
  induction hs with
  | nil h => exact HtChainSeg.nil h
  | cons hget hrest ih =>
    rename_i i b L e
    exact HtChainSeg.cons ((hagree i (List.mem_cons_self i L)).trans hget)
      (ih (fun j hj => hagree j (List.mem_cons_of_mem i hj)))

theorem htChainSeg_set_of_notMem {B : List (ds_htable_bucket α β)}
    {h e : Option Nat} {L : List Nat} {j : Nat} {nb : ds_htable_bucket α β}
    (hs : HtChainSeg B h L e) (hj : j ∉ L) : HtChainSeg (B.set j nb) h L e :=
  htChainSeg_congr hs
    (fun i hi => List.getElem?_set_ne (fun hji => hj (by rw [hji]; exact hi)))

/-! ## Congruence of observables -/

theorem liveIndices_congr {t t' : ds_htable α β} (hnext : t'.next = t.next)
    (hkeys : ∀ i, i < t.next → (bucketAt t' i).key = (bucketAt t i).key) :
    liveIndices t' = liveIndices t := by
  rw [liveIndices, liveIndices, hnext]
  exact List.filter_congr (fun i hi => by
    rw [DS_HTABLE_BUCKET_DELETED, DS_HTABLE_BUCKET_DELETED,
      hkeys i (List.mem_range.mp hi)])

theorem htable_pairs_congr {t t' : ds_htable α β} (hnext : t'.next = t.next)
    (hlen : t.next ≤ t.buckets.length) (hlen' : t'.next ≤ t'.buckets.length)
    (hkeys : ∀ i, i < t.next → (bucketAt t' i).key = (bucketAt t i).key)
    (hvals : ∀ i, i < t.next → (bucketAt t' i).value = (bucketAt t i).value) :
    htable_pairs t' = htable_pairs t := by
  rw [htable_pairs_eq t hlen, htable_pairs_eq t' hlen',
    liveIndices_congr hnext hkeys]
  exact List.filterMap_congr (fun i hi => by
    have hilt : i < t.next := (mem_liveIndices.mp hi).1
    rw [hkeys i hilt, hvals i hilt])

/-- Replacing a bucket without changing its `chainNext` preserves every
chain. -/
theorem htChain_set_preserve_next {B : List (ds_htable_bucket α β)} {i : Nat}
    {b nb : ds_htable_bucket α β} (hget : B[i]? = some b)
    (hcn : nb.chainNext = b.chainNext) {h : Option Nat} {L : List Nat}
    (hc : HtChain B h L) : HtChain (B.set i nb) h L := by
  induction hc with
  | nil => exact HtChain.nil
  | cons hgj hrest ih =>
    rename_i j bj L
    by_cases hji : j = i
    · subst hji
      rw [hget] at hgj
      cases hgj
      have hlt : j < B.length := by
        have := List.getElem?_eq_some.mp hget
        exact this.1
      refine HtChain.cons (show (B.set j nb)[j]? = some nb from
        List.getElem?_set_self hlt) ?_
      rw [hcn]
      exact ih
    · exact HtChain.cons ((List.getElem?_set_ne (fun e => hji e.symm)).trans hgj) ih

/-! ## The three branches of put -/

theorem put_eq_of_found [DecidableEq α] {hf : α → Nat} {t : ds_htable α β}
    {k : α} {i : Nat} (hfind : ds_htable_lookup_by_key hf t k = some i) (v : β) :
    ds_htable_put hf t k v =
      { t with buckets := t.buckets.set i { bucketAt t i with value := some v } } := by
  rw [ds_htable_put, hfind]

theorem put_eq_of_miss_reuse [DecidableEq α] {hf : α → Nat} {t : ds_htable α β}
    {k : α} {d : Nat} (hfind : ds_htable_lookup_by_key hf t k = none)
    (hmd : t.minDeleted = some d) (v : β) :
    ds_htable_put hf t k v =
      { t with
        buckets := t.buckets.set d
          { key := some k, value := some v, hash := hf k,
            chainNext := t.lookup.getD (hf k &&& (t.capacity - 1)) none }
        lookup := t.lookup.set (hf k &&& (t.capacity - 1)) (some d)
        size := t.size + 1
        minDeleted :=
          (List.range' (d + 1) (t.next - (d + 1))).find?
            (fun i => DS_HTABLE_BUCKET_DELETED
              ((t.buckets.set d
                { key := some k, value := some v, hash := hf k,
                  chainNext := t.lookup.getD (hf k &&& (t.capacity - 1)) none }).getD
                i default)) } := by
  rw [ds_htable_put, hfind, hmd]

theorem put_eq_of_miss_append [DecidableEq α] {hf : α → Nat} {t : ds_htable α β}
    {k : α} (hfind : ds_htable_lookup_by_key hf t k = none)
    (hmd : t.minDeleted = none) (hroom : t.next ≠ t.capacity) (v : β) :
    ds_htable_put hf t k v = putAppendState hf t k v := by
  rw [ds_htable_put, hfind, hmd, putAppendState]
  simp [hroom, hmd]

theorem put_eq_of_miss_grow [DecidableEq α] {hf : α → Nat} {t : ds_htable α β}
    {k : α} (hfind : ds_htable_lookup_by_key hf t k = none)
    (hmd : t.minDeleted = none) (hfull : t.next = t.capacity) (v : β) :
    ds_htable_put hf t k v =
      putAppendState hf (ds_htable_double_capacity t) k v := by
  rw [ds_htable_put, hfind, hmd, putAppendState]
  simp [hfull, hmd]

/-! ## Path 1: put on an existing key updates the value in place -/

theorem put_found_spec [DecidableEq α] {hf : α → Nat} {t : ds_htable α β}
    {k : α} {i : Nat} (wf : WF hf t)
    (hfind : ds_htable_lookup_by_key hf t k = some i) (v : β) :
    WF hf (ds_htable_put hf t k v) ∧
    (ds_htable_put hf t k v).size = t.size ∧
    (ds_htable_put hf t k v).next = t.next ∧
    (ds_htable_put hf t k v).capacity = t.capacity ∧
    (ds_htable_put hf t k v).minDeleted = t.minDeleted ∧
    htable_pairs (ds_htable_put hf t k v) =
      (htable_pairs t).map (fun p => if p.1 = k then (k, v) else p) := by
  obtain ⟨hlive, hkey⟩ := (lookup_by_key_eq_some_iff wf).mp hfind
  rw [put_eq_of_found hfind v]
  have hilt : i < t.next := (mem_liveIndices.mp hlive).1
  have hilen : i < t.buckets.length := Nat.lt_of_lt_of_le hilt wf.next_le_buckets
  set nb : ds_htable_bucket α β := { bucketAt t i with value := some v } with hnb
  set u : ds_htable α β := { t with buckets := t.buckets.set i nb } with hu
  have hbat : ∀ j, bucketAt u j = if j = i then nb else bucketAt t j := by
    intro j
    by_cases hj : j = i
    · subst hj
      simp only [if_pos rfl]
      show (t.buckets.set j nb).getD j default = nb
      exact getD_set_self hilen nb default
    · simp only [if_neg hj]
      show (t.buckets.set i nb).getD j default = t.buckets.getD j default
      exact getD_set_ne (fun e => hj e.symm) nb default
  have hkeys : ∀ j, (bucketAt u j).key = (bucketAt t j).key := by
    intro j
    rw [hbat j]
    split
    · rename_i hj; subst hj; rfl
    · rfl
  have hhashes : ∀ j, (bucketAt u j).hash = (bucketAt t j).hash := by
    intro j
    rw [hbat j]
    split
    · rename_i hj; subst hj; rfl
    · rfl
  have hliveu : liveIndices u = liveIndices t :=
    liveIndices_congr rfl (fun j _ => hkeys j)
  have hgeti : t.buckets[i]? = some (bucketAt t i) := by
    rw [bucketAt, List.getD_eq_getElem _ _ hilen, List.getElem?_eq_getElem hilen]
  have hulen : u.buckets.length = t.buckets.length := List.length_set _ _ _
  have hwf : WF hf u := by
    refine ⟨?_, ?_, wf.cap_min, wf.cap_pow, wf.next_le, ?_, ?_, ?_, ?_, ?_, ?_⟩
    · exact wf.lookup_len
    · rw [hulen]; exact wf.buckets_len
    · show u.size = (liveIndices u).length
      rw [hliveu]; exact wf.size_eq
    · intro j hj
      rw [hliveu] at hj
      rw [hbat j]
      split
      · exact rfl
      · exact wf.live_value j hj
    · intro j hj
      rw [hliveu] at hj
      rw [hbat j]
      split
      · rename_i hj2
        subst hj2
        obtain ⟨k0, hk0, hh0⟩ := wf.live_hash j hj
        exact ⟨k0, hk0, hh0⟩
      · exact wf.live_hash j hj
    · intro j1 h1 j2 h2 he
      rw [hliveu] at h1 h2
      rw [show (bucketAt u j1).key = (bucketAt t j1).key from hkeys j1,
        show (bucketAt u j2).key = (bucketAt t j2).key from hkeys j2] at he
      exact wf.key_uniq j1 h1 j2 h2 he
    · intro slot hslot
      obtain ⟨L, hL, hnd, hmem, hcomp⟩ := wf.chains slot hslot
      refine ⟨L, ?_, hnd, ?_, ?_⟩
      · exact @htChain_set_preserve_next α β t.buckets i (bucketAt t i) nb hgeti rfl
          (t.lookup.getD slot none) L hL
      · intro j hj
        obtain ⟨hjl, hjs⟩ := hmem j hj
        refine ⟨hliveu ▸ hjl, ?_⟩
        show slotOf u (bucketAt u j).hash = slot
        rw [hhashes j]
        exact hjs
      · intro j hj hjs
        rw [hliveu] at hj
        apply hcomp j hj
        have h2 : slotOf u (bucketAt u j).hash = slotOf u (bucketAt t j).hash := by
          rw [hhashes j]
        rw [h2] at hjs
        exact hjs
    · show t.minDeleted =
        (List.range t.next).find? (fun j => DS_HTABLE_BUCKET_DELETED (bucketAt u j))
      rw [wf.min_del]
      exact find?_congr_pred _ (fun j _ => by
        simp only [DS_HTABLE_BUCKET_DELETED, hkeys j])
  refine ⟨hwf, rfl, rfl, rfl, rfl, ?_⟩
  have hulen2 : u.next ≤ u.buckets.length := by
    rw [hulen]; exact wf.next_le_buckets
  rw [htable_pairs_eq u hulen2, htable_pairs_eq t wf.next_le_buckets, hliveu,
    List.map_filterMap]
  apply List.filterMap_congr
  intro j hj
  by_cases hji : j = i
  · subst hji
    obtain ⟨vo, hvo⟩ := Option.isSome_iff_exists.mp (wf.live_value j hj)
    rw [hbat j, if_pos rfl]
    have hnbk : nb.key = some k := hkey
    have hnbv : nb.value = some v := rfl
    rw [hnbk, hnbv, hvo]
    simp
  · rw [hbat j, if_neg hji]
    cases hkj : (bucketAt t j).key with
    | none => simp
    | some kj =>
      have hkjne : kj ≠ k := by
        intro e
        exact hji (wf.key_uniq j hj i hlive (by rw [hkj, e, hkey]))
      cases hvj : (bucketAt t j).value with
      | none => simp
      | some vj => simp [hkjne]

/-! ## The append arm: fresh key stored at `next` -/

theorem append_state_spec {hf : α → Nat} {g : ds_htable α β} {k : α}
    (wf : WF hf g) (hmiss : ∀ j ∈ liveIndices g, (bucketAt g j).key ≠ some k)
    (hroom : g.next < g.capacity) (v : β) :
    WF hf (putAppendState hf g k v) ∧
    (putAppendState hf g k v).size = g.size + 1 ∧
    (putAppendState hf g k v).next = g.next + 1 ∧
    (putAppendState hf g k v).capacity = g.capacity ∧
    (putAppendState hf g k v).minDeleted = g.minDeleted ∧
    liveIndices (putAppendState hf g k v) = liveIndices g ++ [g.next] ∧
    htable_pairs (putAppendState hf g k v) = htable_pairs g ++ [(k, v)] := by
  have hnlen : g.next < g.buckets.length := by
    rw [wf.buckets_len]; exact hroom
  set slot0 : Nat := hf k &&& (g.capacity - 1) with hslot0
  have hslot0lt : slot0 < g.capacity :=
    Nat.lt_of_le_of_lt Nat.and_le_right (Nat.sub_lt wf.cap_pos Nat.one_pos)
  set nb : ds_htable_bucket α β :=
    { key := some k, value := some v, hash := hf k,
      chainNext := g.lookup.getD slot0 none } with hnb
  set u : ds_htable α β := putAppendState hf g k v with hu
  have hubuckets : u.buckets = g.buckets.set g.next nb := rfl
  have hulookup : u.lookup = g.lookup.set slot0 (some g.next) := rfl
  have hunext : u.next = g.next + 1 := rfl
  have hbat : ∀ j, bucketAt u j = if j = g.next then nb else bucketAt g j := by
    intro j
    by_cases hj : j = g.next
    · subst hj
      rw [if_pos rfl]
      show (g.buckets.set g.next nb).getD g.next default = nb
      exact getD_set_self hnlen nb default
    · rw [if_neg hj]
      show (g.buckets.set g.next nb).getD j default = g.buckets.getD j default
      exact getD_set_ne (fun e => hj e.symm) nb default
  have hliveu : liveIndices u = liveIndices g ++ [g.next] := by
    show (List.range u.next).filter (fun i => !DS_HTABLE_BUCKET_DELETED (bucketAt u i)) =
      liveIndices g ++ [g.next]
    rw [hunext, List.range_succ, List.filter_append]
    congr 1
    · rw [liveIndices]
      exact List.filter_congr (fun j hj => by
        rw [hbat, if_neg (Nat.ne_of_lt (List.mem_range.mp hj))])
    · simp [hbat, hnb, DS_HTABLE_BUCKET_DELETED]
  have hwf : WF hf u := by
    refine ⟨?_, ?_, wf.cap_min, wf.cap_pow, ?_, ?_, ?_, ?_, ?_, ?_, ?_⟩
    · show (g.lookup.set slot0 (some g.next)).length = g.capacity
      rw [List.length_set]; exact wf.lookup_len
    · show (g.buckets.set g.next nb).length = g.capacity
      rw [List.length_set]; exact wf.buckets_len
    · show g.next + 1 ≤ g.capacity
      exact Nat.succ_le_of_lt hroom
    · show g.size + 1 = (liveIndices u).length
      rw [hliveu, List.length_append, List.length_singleton, ← wf.size_eq]
    · intro j hj
      rw [hliveu] at hj
      rcases List.mem_append.mp hj with hj | hj
      · rw [hbat, if_neg (Nat.ne_of_lt (mem_liveIndices.mp hj).1)]
        exact wf.live_value j hj
      · simp only [List.mem_singleton] at hj
        subst hj
        rw [hbat, if_pos rfl]
        rfl
    · intro j hj
      rw [hliveu] at hj
      rcases List.mem_append.mp hj with hj | hj
      · rw [hbat, if_neg (Nat.ne_of_lt (mem_liveIndices.mp hj).1)]
        exact wf.live_hash j hj
      · simp only [List.mem_singleton] at hj
        subst hj
        rw [hbat, if_pos rfl]
        exact ⟨k, rfl, rfl⟩
    · intro j1 h1 j2 h2 he
      rw [hliveu] at h1 h2
      rcases List.mem_append.mp h1 with h1 | h1 <;>
        rcases List.mem_append.mp h2 with h2 | h2
      · have e1 : j1 ≠ g.next := Nat.ne_of_lt (mem_liveIndices.mp h1).1
        have e2 : j2 ≠ g.next := Nat.ne_of_lt (mem_liveIndices.mp h2).1
        rw [hbat, if_neg e1, hbat, if_neg e2] at he
        exact wf.key_uniq j1 h1 j2 h2 he
      · simp only [List.mem_singleton] at h2
        subst h2
        have e1 : j1 ≠ g.next := Nat.ne_of_lt (mem_liveIndices.mp h1).1
        rw [hbat, if_neg e1, hbat, if_pos rfl] at he
        exact absurd (he.trans (rfl : nb.key = some k)) (hmiss j1 h1)
      · simp only [List.mem_singleton] at h1
        subst h1
        have e2 : j2 ≠ g.next := Nat.ne_of_lt (mem_liveIndices.mp h2).1
        rw [hbat, if_pos rfl, hbat, if_neg e2] at he
        exact absurd (he.symm.trans (rfl : nb.key = some k)) (hmiss j2 h2)
      · simp only [List.mem_singleton] at h1 h2
        rw [h1, h2]
    · intro slot hslot
      obtain ⟨L, hL, hnd, hmem, hcomp⟩ := wf.chains slot hslot
      have hnotmem : g.next ∉ L := fun hm =>
        absurd (mem_liveIndices.mp (hmem _ hm).1).1 (lt_irrefl g.next)
      by_cases hseq : slot = slot0
      · subst hseq
        refine ⟨g.next :: L, ?_, List.nodup_cons.mpr ⟨hnotmem, hnd⟩, ?_, ?_⟩
        · have hhead : u.lookup.getD slot0 none = some g.next := by
            rw [hulookup]
            exact getD_set_self (by rw [wf.lookup_len]; exact hslot0lt) _ _
          rw [hhead]
          refine @HtChain.cons α β u.buckets g.next nb L ?_ ?_
          · rw [hubuckets]
            exact List.getElem?_set_self hnlen
          · show HtChain u.buckets nb.chainNext L
            rw [hubuckets]
            exact isChain_set_of_notMem hL hnotmem
        · intro j hj
          rcases List.mem_cons.mp hj with hj | hj
          · subst hj
            refine ⟨by rw [hliveu]; exact List.mem_append_right _ (List.mem_singleton.mpr rfl), ?_⟩
            show slotOf u (bucketAt u g.next).hash = slot0
            rw [hbat, if_pos rfl]
            rfl
          · obtain ⟨hjl, hjs⟩ := hmem j hj
            refine ⟨by rw [hliveu]; exact List.mem_append_left _ hjl, ?_⟩
            show slotOf u (bucketAt u j).hash = slot0
            rw [hbat, if_neg (Nat.ne_of_lt (mem_liveIndices.mp hjl).1)]
            exact hjs
        · intro j hj hjs
          rw [hliveu] at hj
          rcases List.mem_append.mp hj with hj | hj
          · apply List.mem_cons_of_mem
            apply hcomp j hj
            rw [hbat, if_neg (Nat.ne_of_lt (mem_liveIndices.mp hj).1)] at hjs
            exact hjs
          · simp only [List.mem_singleton] at hj
            subst hj
            exact List.mem_cons_self _ _
      · refine ⟨L, ?_, hnd, ?_, ?_⟩
        · have hhead : u.lookup.getD slot none = g.lookup.getD slot none := by
            rw [hulookup]
            exact getD_set_ne (fun e => hseq e.symm) _ _
          rw [hhead, hubuckets]
          exact isChain_set_of_notMem hL hnotmem
        · intro j hj
          obtain ⟨hjl, hjs⟩ := hmem j hj
          refine ⟨by rw [hliveu]; exact List.mem_append_left _ hjl, ?_⟩
          show slotOf u (bucketAt u j).hash = slot
          rw [hbat, if_neg (Nat.ne_of_lt (mem_liveIndices.mp hjl).1)]
          exact hjs
        · intro j hj hjs
          rw [hliveu] at hj
          rcases List.mem_append.mp hj with hj | hj
          · apply hcomp j hj
            rw [hbat, if_neg (Nat.ne_of_lt (mem_liveIndices.mp hj).1)] at hjs
            exact hjs
          · simp only [List.mem_singleton] at hj
            subst hj
            rw [hbat, if_pos rfl] at hjs
            exact absurd hjs.symm hseq
    · show g.minDeleted =
        (List.range u.next).find? (fun j => DS_HTABLE_BUCKET_DELETED (bucketAt u j))
      rw [hunext, List.range_succ, List.find?_append]
      have h1 : (List.range g.next).find?
          (fun j => DS_HTABLE_BUCKET_DELETED (bucketAt u j)) =
          (List.range g.next).find?
          (fun j => DS_HTABLE_BUCKET_DELETED (bucketAt g j)) :=
        find?_congr_pred _ (fun j hj => by
          rw [hbat, if_neg (Nat.ne_of_lt (List.mem_range.mp hj))])
      rw [h1, ← wf.min_del]
      have h2 : List.find?
          (fun j => DS_HTABLE_BUCKET_DELETED (bucketAt u j)) [g.next] = none := by
        simp [List.find?_cons, hbat, hnb, DS_HTABLE_BUCKET_DELETED]
      rw [h2]
      cases g.minDeleted <;> rfl
  refine ⟨hwf, rfl, rfl, rfl, rfl, hliveu, ?_⟩
  have hulen2 : u.next ≤ u.buckets.length := by
    show g.next + 1 ≤ (g.buckets.set g.next nb).length
    rw [List.length_set]
    exact Nat.succ_le_of_lt hnlen
  rw [htable_pairs_eq u hulen2, hliveu, List.filterMap_append,
    htable_pairs_eq g wf.next_le_buckets]
  congr 1
  · exact List.filterMap_congr (fun j hj => by
      rw [hbat, if_neg (Nat.ne_of_lt (mem_liveIndices.mp hj).1)])
  · simp [hbat, hnb]

/-! ## The rehash fold (growth rebuilds the lookup index) -/

theorem rehash_fold_inv (t0 : ds_htable α β) (hC : 0 < t0.capacity)
    (hlen : t0.next ≤ t0.buckets.length) :
    ∀ m, m ≤ t0.next →
      RehashInv t0 m
        ((List.range m).foldl
          (fun s i =>
            if DS_HTABLE_BUCKET_DELETED (bucketAt s i) then s
            else DS_HTABLE_BUCKET_REHASH s (s.capacity - 1) i)
          { t0 with lookup := List.replicate t0.capacity none }) := by
  intro m
  induction m with
  | zero =>
    intro _
    refine ⟨rfl, List.length_replicate _ _, rfl, rfl, rfl, rfl,
      fun j => rfl, fun j => rfl, fun j => rfl, ?_⟩
    intro slot hslot
    refine ⟨[], ?_, List.nodup_nil, by simp, by omega⟩
    show HtChain t0.buckets ((List.replicate t0.capacity none).getD slot none) []
    rw [getD_replicate_none]
    exact HtChain.nil
  | succ m ih =>
    intro hm
    have inv := ih (Nat.le_of_succ_le hm)
    rw [List.range_succ, List.foldl_append]
    set s := (List.range m).foldl
      (fun s i =>
        if DS_HTABLE_BUCKET_DELETED (bucketAt s i) then s
        else DS_HTABLE_BUCKET_REHASH s (s.capacity - 1) i)
      { t0 with lookup := List.replicate t0.capacity none } with hs
    show RehashInv t0 (m + 1)
      (List.foldl
        (fun s i =>
          if DS_HTABLE_BUCKET_DELETED (bucketAt s i) then s
          else DS_HTABLE_BUCKET_REHASH s (s.capacity - 1) i) s [m])
    have hfold1 : List.foldl
        (fun s i =>
          if DS_HTABLE_BUCKET_DELETED (bucketAt s i) then s
          else DS_HTABLE_BUCKET_REHASH s (s.capacity - 1) i) s [m] =
        (if DS_HTABLE_BUCKET_DELETED (bucketAt s m) then s
          else DS_HTABLE_BUCKET_REHASH s (s.capacity - 1) m) := rfl
    rw [hfold1]
    by_cases hdel : DS_HTABLE_BUCKET_DELETED (bucketAt s m)
    · rw [if_pos hdel]
      refine ⟨inv.cap, inv.lookuplen, inv.bucklen, inv.nexts, inv.sizes, inv.mds,
        inv.keys, inv.vals, inv.hashes, ?_⟩
      intro slot hslot
      obtain ⟨L, hL, hnd, hmem, hcomp⟩ := inv.chains slot hslot
      refine ⟨L, hL, hnd, ?_, ?_⟩
      · intro i hi
        obtain ⟨h1, h2, h3⟩ := hmem i hi
        exact ⟨Nat.lt_succ_of_lt h1, h2, h3⟩
      · intro i hi hk hsl
        rcases Nat.lt_succ_iff_lt_or_eq.mp hi with hi | hi
        · exact hcomp i hi hk hsl
        · subst hi
          rw [DS_HTABLE_BUCKET_DELETED, inv.keys i] at hdel
          simp [Option.isNone_iff_eq_none.mp hdel] at hk
    · rw [if_neg hdel]
      have hmlen : m < s.buckets.length := by
        rw [inv.bucklen]
        exact Nat.lt_of_lt_of_le hm hlen
      set b : ds_htable_bucket α β := bucketAt s m with hb
      set mask : Nat := s.capacity - 1 with hmask
      set slotm : Nat := b.hash &&& mask with hslotm
      have hslotm_t0 : slotm = (bucketAt t0 m).hash &&& (t0.capacity - 1) := by
        rw [hslotm, hb, inv.hashes m, hmask, inv.cap]
      have hslotm_lt : slotm < t0.capacity := by
        rw [hslotm, hmask, inv.cap]
        exact Nat.lt_of_le_of_lt Nat.and_le_right (Nat.sub_lt hC Nat.one_pos)
      set nb : ds_htable_bucket α β :=
        { b with chainNext := s.lookup.getD slotm none } with hnb
      have hreh : DS_HTABLE_BUCKET_REHASH s mask m =
          { s with buckets := s.buckets.set m nb,
                   lookup := s.lookup.set slotm (some m) } := rfl
      rw [hreh]
      set u : ds_htable α β :=
        { s with buckets := s.buckets.set m nb,
                 lookup := s.lookup.set slotm (some m) } with hu
      have hbat : ∀ j, bucketAt u j = if j = m then nb else bucketAt s j := by
        intro j
        by_cases hj : j = m
        · subst hj
          rw [if_pos rfl]
          show (s.buckets.set j nb).getD j default = nb
          exact getD_set_self hmlen nb default
        · rw [if_neg hj]
          show (s.buckets.set m nb).getD j default = s.buckets.getD j default
          exact getD_set_ne (fun e => hj e.symm) nb default
      have hkeysu : ∀ j, (bucketAt u j).key = (bucketAt t0 j).key := by
        intro j
        rw [hbat]
        split
        · rename_i hj
          subst hj
          show b.key = (bucketAt t0 j).key
          rw [hb, inv.keys]
        · exact inv.keys j
      have hvalsu : ∀ j, (bucketAt u j).value = (bucketAt t0 j).value := by
        intro j
        rw [hbat]
        split
        · rename_i hj
          subst hj
          show b.value = (bucketAt t0 j).value
          rw [hb, inv.vals]
        · exact inv.vals j
      have hhashesu : ∀ j, (bucketAt u j).hash = (bucketAt t0 j).hash := by
        intro j
        rw [hbat]
        split
        · rename_i hj
          subst hj
          show b.hash = (bucketAt t0 j).hash
          rw [hb, inv.hashes]
        · exact inv.hashes j
      refine ⟨inv.cap, ?_, ?_, inv.nexts, inv.sizes, inv.mds,
        hkeysu, hvalsu, hhashesu, ?_⟩
      · show (s.lookup.set slotm (some m)).length = t0.capacity
        rw [List.length_set]
        exact inv.lookuplen
      · show (s.buckets.set m nb).length = t0.buckets.length
        rw [List.length_set]
        exact inv.bucklen
      · intro slot hslot
        obtain ⟨L, hL, hnd, hmem, hcomp⟩ := inv.chains slot hslot
        have hmnot : m ∉ L := fun hmm => absurd (hmem m hmm).1 (lt_irrefl m)
        by_cases hseq : slot = slotm
        · subst hseq
          refine ⟨m :: L, ?_, List.nodup_cons.mpr ⟨hmnot, hnd⟩, ?_, ?_⟩
          · have hhead : u.lookup.getD slotm none = some m := by
              show (s.lookup.set slotm (some m)).getD slotm none = some m
              exact getD_set_self (by rw [inv.lookuplen]; exact hslotm_lt) _ _
            rw [hhead]
            refine @HtChain.cons α β u.buckets m nb L ?_ ?_
            · show (s.buckets.set m nb)[m]? = some nb
              exact List.getElem?_set_self hmlen
            · show HtChain u.buckets nb.chainNext L
              show HtChain (s.buckets.set m nb) nb.chainNext L
              exact isChain_set_of_notMem hL hmnot
          · intro i hi
            rcases List.mem_cons.mp hi with hi | hi
            · subst hi
              refine ⟨Nat.lt_succ_self i, ?_, hslotm_t0.symm⟩
              rw [← inv.keys i]
              rw [DS_HTABLE_BUCKET_DELETED] at hdel
              rw [← hb]
              cases hk : b.key with
              | none => rw [hk] at hdel; exact absurd rfl hdel
              | some _ => rfl
            · obtain ⟨h1, h2, h3⟩ := hmem i hi
              exact ⟨Nat.lt_succ_of_lt h1, h2, h3⟩
          · intro i hi hk hsl
            rcases Nat.lt_succ_iff_lt_or_eq.mp hi with hi | hi
            · exact List.mem_cons_of_mem m (hcomp i hi hk hsl)
            · subst hi
              exact List.mem_cons_self _ _
        · refine ⟨L, ?_, hnd, ?_, ?_⟩
          · have hhead : u.lookup.getD slot none = s.lookup.getD slot none := by
              show (s.lookup.set slotm (some m)).getD slot none = s.lookup.getD slot none
              exact getD_set_ne (fun e => hseq e.symm) _ _
            rw [hhead]
            show HtChain (s.buckets.set m nb) (s.lookup.getD slot none) L
            exact isChain_set_of_notMem hL hmnot
          · intro i hi
            obtain ⟨h1, h2, h3⟩ := hmem i hi
            exact ⟨Nat.lt_succ_of_lt h1, h2, h3⟩
          · intro i hi hk hsl
            rcases Nat.lt_succ_iff_lt_or_eq.mp hi with hi | hi
            · exact hcomp i hi hk hsl
            · subst hi
              rw [← hslotm_t0] at hsl
              exact absurd hsl.symm hseq

/-! ## Growth preserves well-formedness and all observables -/

theorem double_capacity_spec {hf : α → Nat} {t : ds_htable α β} (wf : WF hf t) :
    WF hf (ds_htable_double_capacity t) ∧
    (ds_htable_double_capacity t).capacity = t.capacity * 2 ∧
    (ds_htable_double_capacity t).next = t.next ∧
    (ds_htable_double_capacity t).size = t.size ∧
    (ds_htable_double_capacity t).minDeleted = t.minDeleted ∧
    (∀ j, j < t.next →
      (bucketAt (ds_htable_double_capacity t) j).key = (bucketAt t j).key ∧
      (bucketAt (ds_htable_double_capacity t) j).value = (bucketAt t j).value) ∧
    liveIndices (ds_htable_double_capacity t) = liveIndices t ∧
    htable_pairs (ds_htable_double_capacity t) = htable_pairs t := by
  set t1 : ds_htable α β :=
    { t with
      capacity := t.capacity * 2
      buckets := t.buckets ++
        List.replicate (t.capacity * 2 - t.buckets.length) default } with ht1
  have ht1cap : t1.capacity = t.capacity * 2 := rfl
  have ht1next : t1.next = t.next := rfl
  have ht1len : t1.buckets.length = t.capacity * 2 := by
    show (t.buckets ++ List.replicate (t.capacity * 2 - t.buckets.length) default).length =
      t.capacity * 2
    rw [List.length_append, List.length_replicate]
    have : t.buckets.length ≤ t.capacity * 2 := by
      rw [wf.buckets_len]
      omega
    omega
  have ht1bat : ∀ j, j < t.next → bucketAt t1 j = bucketAt t j := by
    intro j hj
    have hjlen : j < t.buckets.length := Nat.lt_of_lt_of_le hj wf.next_le_buckets
    show (t.buckets ++ List.replicate (t.capacity * 2 - t.buckets.length) default).getD
      j default = t.buckets.getD j default
    rw [List.getD_eq_getElem?_getD, List.getElem?_append_left hjlen,
      ← List.getD_eq_getElem?_getD]
  have hC : 0 < t1.capacity := by
    rw [ht1cap]
    have := wf.cap_pos
    omega
  have hlen1 : t1.next ≤ t1.buckets.length := by
    rw [ht1next, ht1len]
    have := wf.next_le
    have := wf.cap_pos
    omega
  have hinv : RehashInv t1 t1.next (ds_htable_double_capacity t) :=
    rehash_fold_inv t1 hC hlen1 t1.next le_rfl
  set g : ds_htable α β := ds_htable_double_capacity t with hg
  have hgkeys : ∀ j, j < t.next → (bucketAt g j).key = (bucketAt t j).key := by
    intro j hj
    rw [hinv.keys j, ht1bat j hj]
  have hgvals : ∀ j, j < t.next → (bucketAt g j).value = (bucketAt t j).value := by
    intro j hj
    rw [hinv.vals j, ht1bat j hj]
  have hghashes : ∀ j, j < t.next → (bucketAt g j).hash = (bucketAt t j).hash := by
    intro j hj
    rw [hinv.hashes j, ht1bat j hj]
  have hgnext : g.next = t.next := hinv.nexts
  have hglive : liveIndices g = liveIndices t :=
    liveIndices_congr hgnext (fun j hj => hgkeys j hj)
  have hglen : g.next ≤ g.buckets.length := by
    rw [hgnext, hinv.bucklen, ht1len]
    have := wf.next_le
    have := wf.cap_pos
    omega
  have hwf : WF hf g := by
    refine ⟨?_, ?_, ?_, ?_, ?_, ?_, ?_, ?_, ?_, ?_, ?_⟩
    · rw [hinv.lookuplen, hinv.cap]
    · rw [hinv.bucklen, ht1len, hinv.cap, ht1cap]
    · show DS_HTABLE_MIN_CAPACITY ≤ g.capacity
      rw [hinv.cap, ht1cap]
      have := wf.cap_min
      omega
    · obtain ⟨mm, hmm⟩ := wf.cap_pow
      exact ⟨mm + 1, by rw [hinv.cap, ht1cap, hmm, pow_succ]⟩
    · rw [hgnext, hinv.cap, ht1cap]
      have := wf.next_le
      have := wf.cap_pos
      omega
    · rw [hinv.sizes, hglive]
      show t1.size = (liveIndices t).length
      exact wf.size_eq
    · intro j hj
      rw [hglive] at hj
      rw [hgvals j (mem_liveIndices.mp hj).1]
      exact wf.live_value j hj
    · intro j hj
      rw [hglive] at hj
      have hjlt := (mem_liveIndices.mp hj).1
      obtain ⟨k0, hk0, hh0⟩ := wf.live_hash j hj
      exact ⟨k0, by rw [hgkeys j hjlt]; exact hk0, by rw [hghashes j hjlt]; exact hh0⟩
    · intro j1 h1 j2 h2 he
      rw [hglive] at h1 h2
      rw [hgkeys j1 (mem_liveIndices.mp h1).1, hgkeys j2 (mem_liveIndices.mp h2).1] at he
      exact wf.key_uniq j1 h1 j2 h2 he
    · intro slot hslot
      have hslot1 : slot < t1.capacity := by
        rw [← hinv.cap]
        exact hslot
      obtain ⟨L, hL, hnd, hmem, hcomp⟩ := hinv.chains slot hslot1
      refine ⟨L, hL, hnd, ?_, ?_⟩
      · intro i hi
        obtain ⟨h1, h2, h3⟩ := hmem i hi
        have h1t : i < t.next := by rw [← ht1next]; exact h1
        refine ⟨mem_liveIndices.mpr ⟨by rw [hgnext]; exact h1t, ?_⟩, ?_⟩
        · rw [hgkeys i h1t, ← ht1bat i h1t]
          exact h2
        · show (bucketAt g i).hash &&& (g.capacity - 1) = slot
          rw [hghashes i h1t, hinv.cap, ht1cap, ← ht1cap, ← ht1bat i h1t]
          exact h3
      · intro i hi hslot2
        have hit : i < g.next := (mem_liveIndices.mp hi).1
        have h1t : i < t.next := by rw [← hgnext]; exact hit
        apply hcomp i (by rw [ht1next]; exact h1t)
        · rw [ht1bat i h1t, ← hgkeys i h1t]
          exact (mem_liveIndices.mp hi).2
        · rw [ht1bat i h1t, ← hghashes i h1t]
          show (bucketAt g i).hash &&& (t1.capacity - 1) = slot
          rw [← hinv.cap]
          exact hslot2
    · show g.minDeleted =
        (List.range g.next).find? (fun j => DS_HTABLE_BUCKET_DELETED (bucketAt g j))
      rw [hinv.mds, hgnext]
      show t.minDeleted = _
      rw [wf.min_del]
      exact find?_congr_pred _ (fun j hj => by
        rw [DS_HTABLE_BUCKET_DELETED, DS_HTABLE_BUCKET_DELETED,
          hgkeys j (List.mem_range.mp hj)])
  refine ⟨hwf, by rw [hinv.cap, ht1cap], hgnext, hinv.sizes, hinv.mds, ?_, hglive, ?_⟩
  · intro j hj
    exact ⟨hgkeys j hj, hgvals j hj⟩
  · exact htable_pairs_congr hgnext wf.next_le_buckets hglen
      (fun j hj => hgkeys j hj) (fun j hj => hgvals j hj)

/-! ## Put on a fresh key with a packed arena appends at the end -/

theorem put_miss_none_spec [DecidableEq α] {hf : α → Nat} {t : ds_htable α β}
    {k : α} (wf : WF hf t)
    (hfind : ds_htable_lookup_by_key hf t k = none)
    (hmd : t.minDeleted = none) (v : β) :
    WF hf (ds_htable_put hf t k v) ∧
    (ds_htable_put hf t k v).size = t.size + 1 ∧
    (ds_htable_put hf t k v).next = t.next + 1 ∧
    (ds_htable_put hf t k v).minDeleted = none ∧
    htable_pairs (ds_htable_put hf t k v) = htable_pairs t ++ [(k, v)] := by
  have hmiss : ∀ j ∈ liveIndices t, (bucketAt t j).key ≠ some k :=
    (lookup_by_key_eq_none_iff wf).mp hfind
  by_cases hfull : t.next = t.capacity
  · rw [put_eq_of_miss_grow hfind hmd hfull v]
    obtain ⟨gwf, gcap, gnext, gsize, gmds, gbat, glive, gpairs⟩ :=
      double_capacity_spec wf
    have hmissg : ∀ j ∈ liveIndices (ds_htable_double_capacity t),
        (bucketAt (ds_htable_double_capacity t) j).key ≠ some k := by
      intro j hj
      rw [glive] at hj
      rw [(gbat j (mem_liveIndices.mp hj).1).1]
      exact hmiss j hj
    have hroomg : (ds_htable_double_capacity t).next <
        (ds_htable_double_capacity t).capacity := by
      rw [gnext, gcap, ← hfull]
      have := wf.cap_pos
      omega
    obtain ⟨uwf, usize, unext, ucap, umds, ulive, upairs⟩ :=
      append_state_spec gwf hmissg hroomg v
    refine ⟨uwf, ?_, ?_, ?_, ?_⟩
    · rw [usize, gsize]
    · rw [unext, gnext]
    · rw [umds, gmds, hmd]
    · rw [upairs, gpairs]
  · rw [put_eq_of_miss_append hfind hmd hfull v]
    have hroom : t.next < t.capacity := Nat.lt_of_le_of_ne wf.next_le hfull
    obtain ⟨uwf, usize, unext, ucap, umds, ulive, upairs⟩ :=
      append_state_spec wf hmiss hroom v
    exact ⟨uwf, usize, unext, by rw [umds, hmd], upairs⟩

/-! ## Put on a fresh key with a pending tombstone reuses the lowest slot -/

theorem put_miss_reuse_spec [DecidableEq α] {hf : α → Nat} {t : ds_htable α β}
    {k : α} {d : Nat} (wf : WF hf t)
    (hfind : ds_htable_lookup_by_key hf t k = none)
    (hmd : t.minDeleted = some d) (v : β) :
    WF hf (ds_htable_put hf t k v) ∧
    (ds_htable_put hf t k v).size = t.size + 1 ∧
    (ds_htable_put hf t k v).next = t.next ∧
    (k, v) ∈ htable_pairs (ds_htable_put hf t k v) := by
  have hmiss : ∀ j ∈ liveIndices t, (bucketAt t j).key ≠ some k :=
    (lookup_by_key_eq_none_iff wf).mp hfind
  have hfd : (List.range t.next).find?
      (fun i => DS_HTABLE_BUCKET_DELETED (bucketAt t i)) = some d :=
    wf.min_del.symm.trans hmd
  have hd_lt : d < t.next := List.mem_range.mp (List.mem_of_find?_eq_some hfd)
  have hd_del0 := List.find?_some hfd
  have hd_del : DS_HTABLE_BUCKET_DELETED (bucketAt t d) = true := hd_del0
  have hd_min0 := find?_range_min hfd
  have hd_min : ∀ i, i < d → DS_HTABLE_BUCKET_DELETED (bucketAt t i) = false :=
    hd_min0
  have hd_len : d < t.buckets.length := Nat.lt_of_lt_of_le hd_lt wf.next_le_buckets
  have hd_not_live : d ∉ liveIndices t := by
    intro hmem
    have := (mem_liveIndices.mp hmem).2
    rw [DS_HTABLE_BUCKET_DELETED] at hd_del
    rw [Option.isNone_iff_eq_none.mp hd_del] at this
    cases this
  have hne : ∀ {j : Nat}, j ∈ liveIndices t → j ≠ d := by
    intro j hj e
    subst e
    exact hd_not_live hj
  rw [put_eq_of_miss_reuse hfind hmd v]
  set slot0 : Nat := hf k &&& (t.capacity - 1) with hslot0
  have hslot0lt : slot0 < t.capacity :=
    Nat.lt_of_le_of_lt Nat.and_le_right (Nat.sub_lt wf.cap_pos Nat.one_pos)
  set nb : ds_htable_bucket α β :=
    { key := some k, value := some v, hash := hf k,
      chainNext := t.lookup.getD slot0 none } with hnb
  set bucketsu : List (ds_htable_bucket α β) := t.buckets.set d nb with hbucketsu
  set u : ds_htable α β :=
    { t with
      buckets := bucketsu
      lookup := t.lookup.set slot0 (some d)
      size := t.size + 1
      minDeleted :=
        (List.range' (d + 1) (t.next - (d + 1))).find?
          (fun i => DS_HTABLE_BUCKET_DELETED (bucketsu.getD i default)) } with hu
  have hunext : u.next = t.next := rfl
  have hbat : ∀ j, bucketAt u j = if j = d then nb else bucketAt t j := by
    intro j
    by_cases hj : j = d
    · subst hj
      rw [if_pos rfl]
      show (t.buckets.set j nb).getD j default = nb
      exact getD_set_self hd_len nb default
    · rw [if_neg hj]
      show (t.buckets.set d nb).getD j default = t.buckets.getD j default
      exact getD_set_ne (fun e => hj e.symm) nb default
  have hlive_iff : ∀ i, i ∈ liveIndices u ↔ (i = d ∨ i ∈ liveIndices t) := by
    intro i
    rw [mem_liveIndices, mem_liveIndices, hunext, hbat]
    by_cases hi : i = d
    · subst hi
      simp [hd_lt]
    · simp only [if_neg hi]
      constructor
      · intro h
        exact Or.inr h
      · intro h
        rcases h with h | h
        · exact absurd h hi
        · exact h
  have hsplit : List.range t.next =
      List.range d ++ d :: List.range' (d + 1) (t.next - (d + 1)) :=
    range_split hd_lt
  have hAeq : (List.range d).filter
      (fun i => !DS_HTABLE_BUCKET_DELETED (bucketAt u i)) =
      (List.range d).filter (fun i => !DS_HTABLE_BUCKET_DELETED (bucketAt t i)) :=
    List.filter_congr (fun i hi => by
      rw [hbat, if_neg (Nat.ne_of_lt (List.mem_range.mp hi))])
  have hTeq : (List.range' (d + 1) (t.next - (d + 1))).filter
      (fun i => !DS_HTABLE_BUCKET_DELETED (bucketAt u i)) =
      (List.range' (d + 1) (t.next - (d + 1))).filter
      (fun i => !DS_HTABLE_BUCKET_DELETED (bucketAt t i)) :=
    List.filter_congr (fun i hi => by
      have : d + 1 ≤ i := (List.mem_range'_1.mp hi).1
      rw [hbat, if_neg (by omega)])
  have hliveu_split : liveIndices u =
      (List.range d).filter (fun i => !DS_HTABLE_BUCKET_DELETED (bucketAt t i)) ++
      d :: (List.range' (d + 1) (t.next - (d + 1))).filter
        (fun i => !DS_HTABLE_BUCKET_DELETED (bucketAt t i)) := by
    show (List.range u.next).filter (fun i => !DS_HTABLE_BUCKET_DELETED (bucketAt u i)) = _
    rw [hunext, hsplit, List.filter_append, hAeq, List.filter_cons]
    rw [show (!DS_HTABLE_BUCKET_DELETED (bucketAt u d)) = true from by
      rw [hbat, if_pos rfl]; rfl]
    rw [if_pos rfl, hTeq]
  have hlivet_split : liveIndices t =
      (List.range d).filter (fun i => !DS_HTABLE_BUCKET_DELETED (bucketAt t i)) ++
      (List.range' (d + 1) (t.next - (d + 1))).filter
        (fun i => !DS_HTABLE_BUCKET_DELETED (bucketAt t i)) := by
    show (List.range t.next).filter _ = _
    rw [hsplit, List.filter_append, List.filter_cons]
    rw [show (!DS_HTABLE_BUCKET_DELETED (bucketAt t d)) = false from by
      rw [hd_del]; rfl]
    rw [if_neg (by simp)]
  have hwf : WF hf u := by
    refine ⟨?_, ?_, wf.cap_min, wf.cap_pow, wf.next_le, ?_, ?_, ?_, ?_, ?_, ?_⟩
    · show (t.lookup.set slot0 (some d)).length = t.capacity
      rw [List.length_set]
      exact wf.lookup_len
    · show (t.buckets.set d nb).length = t.capacity
      rw [List.length_set]
      exact wf.buckets_len
    · show t.size + 1 = (liveIndices u).length
      rw [hliveu_split, List.length_append, List.length_cons, wf.size_eq,
        hlivet_split, List.length_append]
      omega
    · intro j hj
      rcases (hlive_iff j).mp hj with hj2 | hj2
      · subst hj2
        rw [hbat, if_pos rfl]
        rfl
      · rw [hbat, if_neg (hne hj2)]
        exact wf.live_value j hj2
    · intro j hj
      rcases (hlive_iff j).mp hj with hj2 | hj2
      · subst hj2
        rw [hbat, if_pos rfl]
        exact ⟨k, rfl, rfl⟩
      · rw [hbat, if_neg (hne hj2)]
        exact wf.live_hash j hj2
    · intro j1 h1 j2 h2 he
      rcases (hlive_iff j1).mp h1 with h1b | h1b <;>
        rcases (hlive_iff j2).mp h2 with h2b | h2b
      · rw [h1b, h2b]
      · subst h1b
        rw [hbat, if_pos rfl, hbat, if_neg (hne h2b)] at he
        exact absurd (he.symm.trans (rfl : nb.key = some k)) (hmiss j2 h2b)
      · subst h2b
        rw [hbat, if_neg (hne h1b), hbat, if_pos rfl] at he
        exact absurd (he.trans (rfl : nb.key = some k)) (hmiss j1 h1b)
      · rw [hbat, if_neg (hne h1b),
          hbat, if_neg (hne h2b)] at he
        exact wf.key_uniq j1 h1b j2 h2b he
    · intro slot hslot
      obtain ⟨L, hL, hnd, hmem, hcomp⟩ := wf.chains slot hslot
      have hdnot : d ∉ L := fun hm => hd_not_live (hmem d hm).1
      by_cases hseq : slot = slot0
      · subst hseq
        refine ⟨d :: L, ?_, List.nodup_cons.mpr ⟨hdnot, hnd⟩, ?_, ?_⟩
        · have hhead : u.lookup.getD slot0 none = some d := by
            show (t.lookup.set slot0 (some d)).getD slot0 none = some d
            exact getD_set_self (by rw [wf.lookup_len]; exact hslot0lt) _ _
          rw [hhead]
          refine @HtChain.cons α β u.buckets d nb L ?_ ?_
          · show (t.buckets.set d nb)[d]? = some nb
            exact List.getElem?_set_self hd_len
          · show HtChain (t.buckets.set d nb) nb.chainNext L
            exact isChain_set_of_notMem hL hdnot
        · intro j hj
          rcases List.mem_cons.mp hj with hj | hj
          · subst hj
            refine ⟨(hlive_iff j).mpr (Or.inl rfl), ?_⟩
            show slotOf u (bucketAt u j).hash = slot0
            rw [hbat, if_pos rfl]
            rfl
          · obtain ⟨hjl, hjs⟩ := hmem j hj
            refine ⟨(hlive_iff j).mpr (Or.inr hjl), ?_⟩
            show slotOf u (bucketAt u j).hash = slot0
            rw [hbat, if_neg (hne hjl)]
            exact hjs
        · intro j hj hjs
          rcases (hlive_iff j).mp hj with hj2 | hj2
          · subst hj2
            exact List.mem_cons_self _ _
          · apply List.mem_cons_of_mem
            apply hcomp j hj2
            rw [hbat, if_neg (hne hj2)] at hjs
            exact hjs
      · refine ⟨L, ?_, hnd, ?_, ?_⟩
        · have hhead : u.lookup.getD slot none = t.lookup.getD slot none := by
            show (t.lookup.set slot0 (some d)).getD slot none = t.lookup.getD slot none
            exact getD_set_ne (fun e => hseq e.symm) _ _
          rw [hhead]
          show HtChain (t.buckets.set d nb) (t.lookup.getD slot none) L
          exact isChain_set_of_notMem hL hdnot
        · intro j hj
          obtain ⟨hjl, hjs⟩ := hmem j hj
          refine ⟨(hlive_iff j).mpr (Or.inr hjl), ?_⟩
          show slotOf u (bucketAt u j).hash = slot
          rw [hbat, if_neg (hne hjl)]
          exact hjs
        · intro j hj hjs
          rcases (hlive_iff j).mp hj with hj2 | hj2
          · subst hj2
            rw [hbat, if_pos rfl] at hjs
            exact absurd hjs.symm hseq
          · apply hcomp j hj2
            rw [hbat, if_neg (hne hj2)] at hjs
            exact hjs
    · show u.minDeleted =
        (List.range u.next).find? (fun j => DS_HTABLE_BUCKET_DELETED (bucketAt u j))
      rw [hunext, hsplit, List.find?_append]
      have h1 : (List.range d).find?
          (fun j => DS_HTABLE_BUCKET_DELETED (bucketAt u j)) = none := by
        rw [List.find?_eq_none]
        intro i hi
        have hilt := List.mem_range.mp hi
        rw [hbat, if_neg (Nat.ne_of_lt hilt), hd_min i hilt]
        simp
      rw [h1]
      have h2 : List.find? (fun j => DS_HTABLE_BUCKET_DELETED (bucketAt u j))
          (d :: List.range' (d + 1) (t.next - (d + 1))) =
          List.find? (fun j => DS_HTABLE_BUCKET_DELETED (bucketAt u j))
          (List.range' (d + 1) (t.next - (d + 1))) := by
        rw [List.find?_cons]
        rw [show DS_HTABLE_BUCKET_DELETED (bucketAt u d) = false from by
          rw [hbat, if_pos rfl]; rfl]
      rw [h2]
      rfl
  refine ⟨hwf, rfl, rfl, ?_⟩
  refine (mem_pairs_iff hwf).mpr ⟨d, (hlive_iff d).mpr (Or.inl rfl), ?_, ?_⟩
  · rw [hbat, if_pos rfl]
  · rw [hbat, if_pos rfl]

/-! ## Put preserves well-formedness on every path -/

theorem wf_put [DecidableEq α] {hf : α → Nat} {t : ds_htable α β} (wf : WF hf t)
    (k : α) (v : β) : WF hf (ds_htable_put hf t k v) := by
  cases hfind : ds_htable_lookup_by_key hf t k with
  | some i => exact (put_found_spec wf hfind v).1
  | none =>
    cases hmd : t.minDeleted with
    | some d => exact (put_miss_reuse_spec wf hfind hmd v).1
    | none => exact (put_miss_none_spec wf hfind hmd v).1

/-- A fresh table is well-formed. -/
theorem wf_new (hf : α → Nat) : WF hf (ds_htable_new α β) := by
  refine ⟨?_, ?_, le_rfl, ⟨3, rfl⟩, ?_, ?_, ?_, ?_, ?_, ?_, ?_⟩
  · exact List.length_replicate _ _
  · exact List.length_replicate _ _
  · exact Nat.zero_le _
  · rfl
  · intro j hj
    simp [liveIndices, ds_htable_new] at hj
  · intro j hj
    simp [liveIndices, ds_htable_new] at hj
  · intro j hj
    simp [liveIndices, ds_htable_new] at hj
  · intro slot hslot
    refine ⟨[], ?_, List.nodup_nil, by simp, ?_⟩
    · show HtChain (ds_htable_new α β).buckets
        ((List.replicate DS_HTABLE_MIN_CAPACITY none).getD slot none) []
      rw [getD_replicate_none]
      exact HtChain.nil
    · intro i hi
      simp [liveIndices, ds_htable_new] at hi
  · rfl

/-! ## Structure of the removal walk -/

theorem htChainSeg_nil_inv {B : List (ds_htable_bucket α β)} {h e : Option Nat}
    (hs : HtChainSeg B h [] e) : h = e := by
  cases hs
  rfl

theorem chain_find_prev_spec [DecidableEq α] {B : List (ds_htable_bucket α β)}
    {k : α} :
    ∀ {L : List Nat} {prev0 : Option Nat} {i : Nat} {prev : Option Nat},
      chain_find_prev B k L prev0 = some (i, prev) →
      ∃ L₁ L₂, L = L₁ ++ i :: L₂ ∧
        (∀ j ∈ L₁, (B.getD j default).key ≠ some k) ∧
        (B.getD i default).key = some k ∧
        ((L₁ = [] ∧ prev = prev0) ∨ (∃ p L₁p, L₁ = L₁p ++ [p] ∧ prev = some p))
  | [], prev0, i, prev, h => by cases h
  | j :: L, prev0, i, prev, h => by
    rw [chain_find_prev] at h
    by_cases hkj : (B.getD j default).key = some k
    · rw [if_pos hkj] at h
      cases h
      exact ⟨[], L, rfl, by simp, hkj, Or.inl ⟨rfl, rfl⟩⟩
    · rw [if_neg hkj] at h
      obtain ⟨L₁, L₂, hdec, hmiss, hkey, hprev⟩ := chain_find_prev_spec h
      refine ⟨j :: L₁, L₂, by rw [hdec]; rfl, ?_, hkey, ?_⟩
      · intro a ha
        rcases List.mem_cons.mp ha with ha | ha
        · subst ha
          exact hkj
        · exact hmiss a ha
      · rcases hprev with ⟨h1, h2⟩ | ⟨p, L₁p, h1, h2⟩
        · subst h1
          exact Or.inr ⟨j, [], rfl, h2⟩
        · subst h1
          exact Or.inr ⟨p, j :: L₁p, rfl, h2⟩

/-- After tombstoning a live bucket, the first-deleted index is the minimum
of the previous one and the tombstoned index. -/
theorem find?_deleted_after_remove {t : ds_htable α β} {pu : Nat → Bool} {i : Nat}
    (hmd : t.minDeleted =
      (List.range t.next).find? (fun j => DS_HTABLE_BUCKET_DELETED (bucketAt t j)))
    (hi_lt : i < t.next)
    (hilive : DS_HTABLE_BUCKET_DELETED (bucketAt t i) = false)
    (hpu : ∀ j, j < t.next →
      pu j = if j = i then true else DS_HTABLE_BUCKET_DELETED (bucketAt t j)) :
    (List.range t.next).find? pu = some (t.minDeleted.elim i (min i)) := by
  cases hmd0 : t.minDeleted with
  | none =>
    have hfnone : (List.range t.next).find?
        (fun j => DS_HTABLE_BUCKET_DELETED (bucketAt t j)) = none := by
      rw [← hmd, hmd0]
    have hall : ∀ j, j < t.next → DS_HTABLE_BUCKET_DELETED (bucketAt t j) = false := by
      intro j hj
      have h2 := List.find?_eq_none.mp hfnone j (List.mem_range.mpr hj)
      simpa using h2
    show (List.range t.next).find? pu = some i
    apply find?_range_eq_some_of hi_lt
    · rw [hpu i hi_lt, if_pos rfl]
    · intro j hj
      rw [hpu j (Nat.lt_trans hj hi_lt), if_neg (Nat.ne_of_lt hj),
        hall j (Nat.lt_trans hj hi_lt)]
  | some d0 =>
    have hfd : (List.range t.next).find?
        (fun j => DS_HTABLE_BUCKET_DELETED (bucketAt t j)) = some d0 := by
      rw [← hmd, hmd0]
    have hd0_lt : d0 < t.next := List.mem_range.mp (List.mem_of_find?_eq_some hfd)
    have hd0_del0 := List.find?_some hfd
    have hd0_del : DS_HTABLE_BUCKET_DELETED (bucketAt t d0) = true := hd0_del0
    have hd0_min0 := find?_range_min hfd
    have hd0_min : ∀ j, j < d0 → DS_HTABLE_BUCKET_DELETED (bucketAt t j) = false :=
      hd0_min0
    have hne : i ≠ d0 := by
      intro e
      rw [e, hd0_del] at hilive
      cases hilive
    show (List.range t.next).find? pu = some (min i d0)
    rcases Nat.lt_or_ge i d0 with hlt | hge
    · rw [Nat.min_eq_left (Nat.le_of_lt hlt)]
      apply find?_range_eq_some_of hi_lt
      · rw [hpu i hi_lt, if_pos rfl]
      · intro j hj
        rw [hpu j (Nat.lt_trans hj hi_lt), if_neg (Nat.ne_of_lt hj),
          hd0_min j (Nat.lt_trans hj hlt)]
    · have hlt2 : d0 < i := Nat.lt_of_le_of_ne hge (fun e => hne e.symm)
      rw [Nat.min_eq_right (Nat.le_of_lt hlt2)]
      apply find?_range_eq_some_of hd0_lt
      · rw [hpu d0 hd0_lt, if_neg (fun e => hne e.symm), hd0_del]
      · intro j hj
        rw [hpu j (Nat.lt_trans hj hd0_lt),
          if_neg (Nat.ne_of_lt (Nat.lt_trans hj hlt2)), hd0_min j hj]

/-- Well-formedness after tombstoning the live bucket `i`, given the rebuilt
chains (stated against the original table's data). -/
theorem wf_after_tombstone {hf : α → Nat} {t u : ds_htable α β} {i : Nat}
    (wf : WF hf t) (hilive : i ∈ liveIndices t)
    (hcap : u.capacity = t.capacity)
    (hnext : u.next = t.next)
    (hsize : u.size = t.size - 1)
    (hmd : u.minDeleted = some (t.minDeleted.elim i (min i)))
    (hlookuplen : u.lookup.length = t.lookup.length)
    (hbucklen : u.buckets.length = t.buckets.length)
    (hkeysu : ∀ j, j ≠ i → (bucketAt u j).key = (bucketAt t j).key)
    (hvalsu : ∀ j, j ≠ i → (bucketAt u j).value = (bucketAt t j).value)
    (hhashesu : ∀ j, j ≠ i → (bucketAt u j).hash = (bucketAt t j).hash)
    (hdel_i : (bucketAt u i).key = none)
    (hchains : ∀ slot, slot < t.capacity →
      ∃ L, HtChain u.buckets (u.lookup.getD slot none) L ∧ L.Nodup ∧
        (∀ j ∈ L, j ∈ liveIndices t ∧ j ≠ i ∧
          slotOf t (bucketAt t j).hash = slot) ∧
        (∀ j ∈ liveIndices t, j ≠ i →
          slotOf t (bucketAt t j).hash = slot → j ∈ L)) :
    WF hf u := by
  have hi_lt : i < t.next := (mem_liveIndices.mp hilive).1
  have hinotdel : DS_HTABLE_BUCKET_DELETED (bucketAt t i) = false := by
    rw [DS_HTABLE_BUCKET_DELETED]
    have := (mem_liveIndices.mp hilive).2
    cases hk : (bucketAt t i).key with
    | none => rw [hk] at this; cases this
    | some _ => rfl
  have hlive_iff : ∀ j, j ∈ liveIndices u ↔ (j ∈ liveIndices t ∧ j ≠ i) := by
    intro j
    rw [mem_liveIndices, mem_liveIndices, hnext]
    by_cases hj : j = i
    · subst hj
      rw [hdel_i]
      simp
    · rw [hkeysu j hj]
      constructor
      · intro h
        exact ⟨h, hj⟩
      · intro h
        exact h.1
  have hsplit : List.range t.next =
      List.range i ++ i :: List.range' (i + 1) (t.next - (i + 1)) :=
    range_split hi_lt
  have hAeq : (List.range i).filter
      (fun j => !DS_HTABLE_BUCKET_DELETED (bucketAt u j)) =
      (List.range i).filter (fun j => !DS_HTABLE_BUCKET_DELETED (bucketAt t j)) :=
    List.filter_congr (fun j hj => by
      rw [DS_HTABLE_BUCKET_DELETED, DS_HTABLE_BUCKET_DELETED,
        hkeysu j (Nat.ne_of_lt (List.mem_range.mp hj))])
  have hTeq : (List.range' (i + 1) (t.next - (i + 1))).filter
      (fun j => !DS_HTABLE_BUCKET_DELETED (bucketAt u j)) =
      (List.range' (i + 1) (t.next - (i + 1))).filter
      (fun j => !DS_HTABLE_BUCKET_DELETED (bucketAt t j)) :=
    List.filter_congr (fun j hj => by
      have : i + 1 ≤ j := (List.mem_range'_1.mp hj).1
      rw [DS_HTABLE_BUCKET_DELETED, DS_HTABLE_BUCKET_DELETED,
        hkeysu j (by omega)])
  have hliveu_split : liveIndices u =
      (List.range i).filter (fun j => !DS_HTABLE_BUCKET_DELETED (bucketAt t j)) ++
      (List.range' (i + 1) (t.next - (i + 1))).filter
        (fun j => !DS_HTABLE_BUCKET_DELETED (bucketAt t j)) := by
    show (List.range u.next).filter _ = _
    rw [hnext, hsplit, List.filter_append, hAeq, List.filter_cons]
    rw [show (!DS_HTABLE_BUCKET_DELETED (bucketAt u i)) = false from by
      rw [DS_HTABLE_BUCKET_DELETED, hdel_i]; rfl]
    rw [if_neg (by simp), hTeq]
  have hlivet_split : liveIndices t =
      (List.range i).filter (fun j => !DS_HTABLE_BUCKET_DELETED (bucketAt t j)) ++
      i :: (List.range' (i + 1) (t.next - (i + 1))).filter
        (fun j => !DS_HTABLE_BUCKET_DELETED (bucketAt t j)) := by
    show (List.range t.next).filter _ = _
    rw [hsplit, List.filter_append, List.filter_cons]
    rw [show (!DS_HTABLE_BUCKET_DELETED (bucketAt t i)) = true from by
      rw [hinotdel]; rfl]
    rw [if_pos rfl]
  refine ⟨?_, ?_, ?_, ?_, ?_, ?_, ?_, ?_, ?_, ?_, ?_⟩
  · rw [hlookuplen, hcap, wf.lookup_len]
  · rw [hbucklen, hcap, wf.buckets_len]
  · rw [hcap]; exact wf.cap_min
  · rw [hcap]; exact wf.cap_pow
  · rw [hnext, hcap]; exact wf.next_le
  · rw [hsize, hliveu_split, List.length_append, wf.size_eq, hlivet_split,
      List.length_append, List.length_cons]
    omega
  · intro j hj
    obtain ⟨hjt, hjne⟩ := (hlive_iff j).mp hj
    rw [hvalsu j hjne]
    exact wf.live_value j hjt
  · intro j hj
    obtain ⟨hjt, hjne⟩ := (hlive_iff j).mp hj
    obtain ⟨k0, hk0, hh0⟩ := wf.live_hash j hjt
    exact ⟨k0, by rw [hkeysu j hjne]; exact hk0, by rw [hhashesu j hjne]; exact hh0⟩
  · intro j1 h1 j2 h2 he
    obtain ⟨h1t, h1ne⟩ := (hlive_iff j1).mp h1
    obtain ⟨h2t, h2ne⟩ := (hlive_iff j2).mp h2
    rw [hkeysu j1 h1ne, hkeysu j2 h2ne] at he
    exact wf.key_uniq j1 h1t j2 h2t he
  · intro slot hslot
    obtain ⟨L, hL, hnd, hmem, hcomp⟩ := hchains slot (by rw [← hcap]; exact hslot)
    refine ⟨L, hL, hnd, ?_, ?_⟩
    · intro j hj
      obtain ⟨hjt, hjne, hjs⟩ := hmem j hj
      refine ⟨(hlive_iff j).mpr ⟨hjt, hjne⟩, ?_⟩
      show slotOf u (bucketAt u j).hash = slot
      rw [slotOf, hhashesu j hjne, hcap]
      exact hjs
    · intro j hj hjs
      obtain ⟨hjt, hjne⟩ := (hlive_iff j).mp hj
      apply hcomp j hjt hjne
      rw [slotOf, hhashesu j hjne, hcap] at hjs
      exact hjs
  · rw [hmd, hnext]
    symm
    apply find?_deleted_after_remove wf.min_del hi_lt hinotdel
    intro j hj
    by_cases hji : j = i
    · subst hji
      rw [if_pos rfl, DS_HTABLE_BUCKET_DELETED, hdel_i]
      rfl
    · rw [if_neg hji, DS_HTABLE_BUCKET_DELETED, DS_HTABLE_BUCKET_DELETED,
        hkeysu j hji]

/-! ## The branches of remove -/

theorem remove_eq_of_notfound [DecidableEq α] {hf : α → Nat} {t : ds_htable α β}
    {k : α} (hloop : ds_htable_remove_loop t.buckets k (t.next + 1)
      (t.lookup.getD (hf k &&& (t.capacity - 1)) none) none = none) :
    ds_htable_remove hf t k = (t, none) := by
  rw [ds_htable_remove, hloop]

theorem remove_eq_of_found_head [DecidableEq α] {hf : α → Nat} {t : ds_htable α β}
    {k : α} {i : Nat} (hloop : ds_htable_remove_loop t.buckets k (t.next + 1)
      (t.lookup.getD (hf k &&& (t.capacity - 1)) none) none = some (i, none)) :
    ds_htable_remove hf t k =
      ({ t with
          lookup := t.lookup.set (hf k &&& (t.capacity - 1)) (bucketAt t i).chainNext
          buckets := t.buckets.set i (DS_HTABLE_BUCKET_DELETE (bucketAt t i))
          size := t.size - 1
          minDeleted := some (t.minDeleted.elim i (min i)) },
        (bucketAt t i).value) := by
  rw [ds_htable_remove, hloop]

theorem remove_eq_of_found_prev [DecidableEq α] {hf : α → Nat} {t : ds_htable α β}
    {k : α} {i p : Nat} (hloop : ds_htable_remove_loop t.buckets k (t.next + 1)
      (t.lookup.getD (hf k &&& (t.capacity - 1)) none) none = some (i, some p)) :
    ds_htable_remove hf t k =
      ({ t with
          buckets := (t.buckets.set p
            { bucketAt t p with chainNext := (bucketAt t i).chainNext }).set i
            (DS_HTABLE_BUCKET_DELETE (bucketAt t i))
          size := t.size - 1
          minDeleted := some (t.minDeleted.elim i (min i)) },
        (bucketAt t i).value) := by
  rw [ds_htable_remove, hloop]

/-! ## Remove preserves well-formedness -/

theorem remove_spec [DecidableEq α] {hf : α → Nat} {t : ds_htable α β}
    (wf : WF hf t) (k : α) : WF hf (ds_htable_remove hf t k).1 := by
  have hslotlt : hf k &&& (t.capacity - 1) < t.capacity :=
    Nat.lt_of_le_of_lt Nat.and_le_right (Nat.sub_lt wf.cap_pos Nat.one_pos)
  obtain ⟨L, hL, hnd, hmem, hcomp⟩ := wf.chains (hf k &&& (t.capacity - 1)) hslotlt
  have hlenL : L.length < t.next + 1 :=
    Nat.lt_succ_of_le (chain_length_le hnd
      (fun j hj => (mem_liveIndices.mp (hmem j hj).1).1))
  have hswap : ds_htable_remove_loop t.buckets k (t.next + 1)
      (t.lookup.getD (hf k &&& (t.capacity - 1)) none) none =
      chain_find_prev t.buckets k L none :=
    remove_loop_eq_chain_find_prev hL hlenL none
  cases hfp : chain_find_prev t.buckets k L none with
  | none =>
    rw [remove_eq_of_notfound (hswap.trans hfp)]
    exact wf
  | some ip =>
    obtain ⟨i, prev⟩ := ip
    obtain ⟨L₁, L₂, hLdec, hL₁miss, hkeyi0, hprev⟩ := chain_find_prev_spec hfp
    have hkeyi : (bucketAt t i).key = some k := hkeyi0
    have hiL : i ∈ L := by
      rw [hLdec]
      exact List.mem_append_right _ (List.mem_cons_self _ _)
    have hilive : i ∈ liveIndices t := (hmem i hiL).1
    have hsloti : slotOf t (bucketAt t i).hash = hf k &&& (t.capacity - 1) :=
      (hmem i hiL).2
    have hi_lt : i < t.next := (mem_liveIndices.mp hilive).1
    have hi_len : i < t.buckets.length := Nat.lt_of_lt_of_le hi_lt wf.next_le_buckets
    have hndL : (L₁ ++ i :: L₂).Nodup := by rw [← hLdec]; exact hnd
    obtain ⟨hndL₁, hndiL₂, hdisj⟩ := List.nodup_append.mp hndL
    obtain ⟨hiL₂, hndL₂⟩ := List.nodup_cons.mp hndiL₂
    have hiL₁ : i ∉ L₁ := fun h => hdisj h (List.mem_cons_self _ _)
    have hmemL₂ : ∀ j ∈ L₂, j ∈ liveIndices t ∧
        slotOf t (bucketAt t j).hash = hf k &&& (t.capacity - 1) := by
      intro j hj
      have hjL : j ∈ L := by
        rw [hLdec]
        exact List.mem_append_right _ (List.mem_cons_of_mem _ hj)
      exact hmem j hjL
    have hseg : HtChainSeg t.buckets
        (t.lookup.getD (hf k &&& (t.capacity - 1)) none) L none :=
      htChain_iff_seg_none.mp hL
    rw [hLdec] at hseg
    obtain ⟨m, hseg1, hseg2⟩ := htChainSeg_append_iff.mp hseg
    cases hseg2 with
    | cons hgeti hseg2' =>
      rename_i bi0
      have hbi0 : bucketAt t i = bi0 := by
        rw [bucketAt, List.getD_eq_getElem?_getD, hgeti]
        rfl
      have hchainL₂ : HtChain t.buckets (bucketAt t i).chainNext L₂ := by
        rw [hbi0]
        exact htChain_iff_seg_none.mpr hseg2'
      cases prev with
      | none =>
        rcases hprev with ⟨hL₁nil, _⟩ | ⟨p, L₁p, _, hpe⟩
        swap
        · cases hpe
        subst hL₁nil
        rw [remove_eq_of_found_head (hswap.trans hfp)]
        refine wf_after_tombstone wf hilive ?_ ?_ ?_ ?_ ?_ ?_ ?_ ?_ ?_ ?_ ?_
        · rfl
        · rfl
        · rfl
        · rfl
        · exact List.length_set _ _ _
        · exact List.length_set _ _ _
        · intro j hj
          show ((t.buckets.set i (DS_HTABLE_BUCKET_DELETE (bucketAt t i))).getD
            j default).key = (bucketAt t j).key
          rw [getD_set_ne (fun e => hj e.symm)]
          rfl
        · intro j hj
          show ((t.buckets.set i (DS_HTABLE_BUCKET_DELETE (bucketAt t i))).getD
            j default).value = (bucketAt t j).value
          rw [getD_set_ne (fun e => hj e.symm)]
          rfl
        · intro j hj
          show ((t.buckets.set i (DS_HTABLE_BUCKET_DELETE (bucketAt t i))).getD
            j default).hash = (bucketAt t j).hash
          rw [getD_set_ne (fun e => hj e.symm)]
          rfl
        · show ((t.buckets.set i (DS_HTABLE_BUCKET_DELETE (bucketAt t i))).getD
            i default).key = none
          rw [getD_set_self hi_len]
          rfl
        · intro slot hslot
          by_cases hseq : slot = hf k &&& (t.capacity - 1)
          · subst hseq
            refine ⟨L₂, ?_, hndL₂, ?_, ?_⟩
            · have hh2 : (t.lookup.set (hf k &&& (t.capacity - 1))
                  (bucketAt t i).chainNext).getD (hf k &&& (t.capacity - 1)) none =
                  (bucketAt t i).chainNext :=
                getD_set_self (by rw [wf.lookup_len]; exact hslot) _ _
              show HtChain (t.buckets.set i (DS_HTABLE_BUCKET_DELETE (bucketAt t i)))
                ((t.lookup.set (hf k &&& (t.capacity - 1))
                  (bucketAt t i).chainNext).getD (hf k &&& (t.capacity - 1)) none) L₂
              rw [hh2]
              exact isChain_set_of_notMem hchainL₂ hiL₂
            · intro j hj
              have hne : j ≠ i := fun e => hiL₂ (e ▸ hj)
              exact ⟨(hmemL₂ j hj).1, hne, (hmemL₂ j hj).2⟩
            · intro j hjt hjne hjs
              have hjL : j ∈ L := hcomp j hjt hjs
              rw [hLdec, List.nil_append] at hjL
              rcases List.mem_cons.mp hjL with e | h
              · exact absurd e hjne
              · exact h
          · obtain ⟨L', hL', hnd', hmem', hcomp'⟩ := wf.chains slot hslot
            have hiL' : i ∉ L' := fun h => hseq (((hmem' i h).2).symm.trans hsloti)
            refine ⟨L', ?_, hnd', ?_, ?_⟩
            · have hh2 : (t.lookup.set (hf k &&& (t.capacity - 1))
                  (bucketAt t i).chainNext).getD slot none =
                  t.lookup.getD slot none :=
                getD_set_ne (fun e => hseq e.symm) _ _
              show HtChain (t.buckets.set i (DS_HTABLE_BUCKET_DELETE (bucketAt t i)))
                ((t.lookup.set (hf k &&& (t.capacity - 1))
                  (bucketAt t i).chainNext).getD slot none) L'
              rw [hh2]
              exact isChain_set_of_notMem hL' hiL'
            · intro j hj
              have hne : j ≠ i := fun e => hiL' (e ▸ hj)
              exact ⟨(hmem' j hj).1, hne, (hmem' j hj).2⟩
            · intro j hjt hjne hjs
              exact hcomp' j hjt hjs
      | some p =>
        rcases hprev with ⟨_, hpe⟩ | ⟨p', L₁p, hL₁dec, hpe⟩
        · cases hpe
        injection hpe with hpp
        subst hpp
        subst hL₁dec
        have hpL₁ : p ∈ L₁p ++ [p] :=
          List.mem_append_right _ (List.mem_singleton.mpr rfl)
        have hpL : p ∈ L := by
          rw [hLdec]
          exact List.mem_append_left _ hpL₁
        have hplive : p ∈ liveIndices t := (hmem p hpL).1
        have hslotp : slotOf t (bucketAt t p).hash = hf k &&& (t.capacity - 1) :=
          (hmem p hpL).2
        have hp_lt : p < t.next := (mem_liveIndices.mp hplive).1
        have hp_len : p < t.buckets.length := Nat.lt_of_lt_of_le hp_lt wf.next_le_buckets
        have hpnei : p ≠ i := fun e => hiL₁ (e ▸ hpL₁)
        obtain ⟨hndL₁p, _, hdisjL₁p⟩ := List.nodup_append.mp hndL₁
        have hpL₁p : p ∉ L₁p := fun h => hdisjL₁p h (List.mem_singleton.mpr rfl)
        have hpL₂ : p ∉ L₂ := fun h => hdisj hpL₁ (List.mem_cons_of_mem _ h)
        have hiL₁p : i ∉ L₁p := fun h => hiL₁ (List.mem_append_left _ h)
        obtain ⟨m2, hseg1a, hseg1b⟩ := htChainSeg_append_iff.mp hseg1
        cases hseg1b with
        | cons hgetp hseg1b' =>
          rename_i bp0
          have hbp0 : bucketAt t p = bp0 := by
            rw [bucketAt, List.getD_eq_getElem?_getD, hgetp]
            rfl
          rw [remove_eq_of_found_prev (hswap.trans hfp)]
          set nbp : ds_htable_bucket α β :=
            { bucketAt t p with chainNext := (bucketAt t i).chainNext } with hnbp
          set B2 : List (ds_htable_bucket α β) :=
            (t.buckets.set p nbp).set i (DS_HTABLE_BUCKET_DELETE (bucketAt t i)) with hB2
          have hB2len : B2.length = t.buckets.length := by
            rw [hB2, List.length_set, List.length_set]
          have hB2at : ∀ j, j ≠ i → j ≠ p → B2.getD j default = bucketAt t j := by
            intro j hji hjp
            rw [hB2, getD_set_ne (fun e => hji e.symm), getD_set_ne (fun e => hjp e.symm)]
            rfl
          have hB2p : B2.getD p default = nbp := by
            rw [hB2, getD_set_ne (fun e => hpnei e.symm), getD_set_self hp_len]
          have hB2i : B2.getD i default = DS_HTABLE_BUCKET_DELETE (bucketAt t i) := by
            rw [hB2, getD_set_self (by rw [List.length_set]; exact hi_len)]
          refine wf_after_tombstone wf hilive ?_ ?_ ?_ ?_ ?_ ?_ ?_ ?_ ?_ ?_ ?_
          · rfl
          · rfl
          · rfl
          · rfl
          · rfl
          · exact hB2len
          · intro j hj
            show (B2.getD j default).key = (bucketAt t j).key
            by_cases hjp : j = p
            · subst hjp
              rw [hB2p]
            · rw [hB2at j hj hjp]
          · intro j hj
            show (B2.getD j default).value = (bucketAt t j).value
            by_cases hjp : j = p
            · subst hjp
              rw [hB2p]
            · rw [hB2at j hj hjp]
          · intro j hj
            show (B2.getD j default).hash = (bucketAt t j).hash
            by_cases hjp : j = p
            · subst hjp
              rw [hB2p]
            · rw [hB2at j hj hjp]
          · show (B2.getD i default).key = none
            rw [hB2i]
            rfl
          · intro slot hslot
            by_cases hseq : slot = hf k &&& (t.capacity - 1)
            · subst hseq
              refine ⟨L₁p ++ p :: L₂, ?_, ?_, ?_, ?_⟩
              · show HtChain B2
                  (t.lookup.getD (hf k &&& (t.capacity - 1)) none) (L₁p ++ p :: L₂)
                apply htChain_iff_seg_none.mpr
                apply htChainSeg_append_iff.mpr
                refine ⟨some p, ?_, ?_⟩
                · have s1 : HtChainSeg (t.buckets.set p nbp)
                      (t.lookup.getD (hf k &&& (t.capacity - 1)) none) L₁p (some p) :=
                    htChainSeg_set_of_notMem hseg1a hpL₁p
                  rw [hB2]
                  exact htChainSeg_set_of_notMem s1 hiL₁p
                · refine @HtChainSeg.cons α β B2 p nbp L₂ none ?_ ?_
                  · rw [hB2]
                    rw [List.getElem?_set_ne hpnei.symm]
                    exact List.getElem?_set_self hp_len
                  · show HtChainSeg B2 (bucketAt t i).chainNext L₂ none
                    apply htChain_iff_seg_none.mp
                    rw [hB2]
                    apply isChain_set_of_notMem _ hiL₂
                    exact isChain_set_of_notMem hchainL₂ hpL₂
              · apply List.nodup_append.mpr
                refine ⟨hndL₁p, List.nodup_cons.mpr ⟨hpL₂, hndL₂⟩, ?_⟩
                intro a ha ha2
                rcases List.mem_cons.mp ha2 with e | h
                · subst e
                  exact hpL₁p ha
                · exact hdisj (List.mem_append_left _ ha) (List.mem_cons_of_mem _ h)
              · intro j hj
                rcases List.mem_append.mp hj with hj | hj
                · have hjL : j ∈ L := by
                    rw [hLdec]
                    exact List.mem_append_left _ (List.mem_append_left _ hj)
                  exact ⟨(hmem j hjL).1, fun e => hiL₁p (e ▸ hj), (hmem j hjL).2⟩
                · rcases List.mem_cons.mp hj with e | h
                  · subst e
                    exact ⟨hplive, hpnei, hslotp⟩
                  · exact ⟨(hmemL₂ j h).1, fun e => hiL₂ (e ▸ h), (hmemL₂ j h).2⟩
              · intro j hjt hjne hjs
                have hjL : j ∈ L := hcomp j hjt hjs
                rw [hLdec] at hjL
                rcases List.mem_append.mp hjL with hj1 | hj2
                · rcases List.mem_append.mp hj1 with hj1 | hj1
                  · exact List.mem_append_left _ hj1
                  · rw [List.mem_singleton.mp hj1]
                    exact List.mem_append_right _ (List.mem_cons_self _ _)
                · rcases List.mem_cons.mp hj2 with e | h
                  · exact absurd e hjne
                  · exact List.mem_append_right _ (List.mem_cons_of_mem _ h)
            · obtain ⟨L', hL', hnd', hmem', hcomp'⟩ := wf.chains slot hslot
              have hiL' : i ∉ L' := fun h => hseq (((hmem' i h).2).symm.trans hsloti)
              have hpL' : p ∉ L' := fun h => hseq (((hmem' p h).2).symm.trans hslotp)
              refine ⟨L', ?_, hnd', ?_, ?_⟩
              · show HtChain B2 (t.lookup.getD slot none) L'
                rw [hB2]
                exact isChain_set_of_notMem (isChain_set_of_notMem hL' hpL') hiL'
              · intro j hj
                exact ⟨(hmem' j hj).1, fun e => hiL' (e ▸ hj), (hmem' j hj).2⟩
              · intro j hjt hjne hjs
                exact hcomp' j hjt hjs

/-! ## Derived facts about put and rebuilt tables -/

theorem get_eq_some_iff_mem_pairs [DecidableEq α] {hf : α → Nat}
    {t : ds_htable α β} (wf : WF hf t) {k : α} {v : β} :
    ds_htable_get hf t k = some v ↔ (k, v) ∈ htable_pairs t := by
  rw [get_eq_some_iff wf, mem_pairs_iff wf]

theorem get_put_self [DecidableEq α] {hf : α → Nat} {t : ds_htable α β}
    (wf : WF hf t) (k : α) (v : β) :
    ds_htable_get hf (ds_htable_put hf t k v) k = some v := by
  cases hfind : ds_htable_lookup_by_key hf t k with
  | some i =>
    obtain ⟨hwf, _, _, _, _, hpairs⟩ := put_found_spec wf hfind v
    rw [get_eq_some_iff_mem_pairs hwf, hpairs]
    obtain ⟨hlive, hkey⟩ := (lookup_by_key_eq_some_iff wf).mp hfind
    obtain ⟨v0, hv0⟩ := Option.isSome_iff_exists.mp (wf.live_value i hlive)
    have hmem0 : (k, v0) ∈ htable_pairs t :=
      (mem_pairs_iff wf).mpr ⟨i, hlive, hkey, hv0⟩
    exact List.mem_map.mpr ⟨(k, v0), hmem0, by simp⟩
  | none =>
    cases hmd : t.minDeleted with
    | none =>
      obtain ⟨hwf, _, _, _, hpairs⟩ := put_miss_none_spec wf hfind hmd v
      rw [get_eq_some_iff_mem_pairs hwf, hpairs]
      exact List.mem_append_right _ (List.mem_singleton.mpr rfl)
    | some d =>
      obtain ⟨hwf, _, _, hmem⟩ := put_miss_reuse_spec wf hfind hmd v
      rw [get_eq_some_iff_mem_pairs hwf]
      exact hmem

theorem wf_foldl_put [DecidableEq α] {hf : α → Nat} :
    ∀ (l : List (α × β)) {t : ds_htable α β}, WF hf t →
      WF hf (l.foldl (fun t kv => ds_htable_put hf t kv.1 kv.2) t)
  | [], _, wf => wf
  | kv :: l, _, wf => wf_foldl_put l (wf_put wf kv.1 kv.2)

theorem lookup_isSome_iff_mem_keys [DecidableEq α] {hf : α → Nat}
    {t : ds_htable α β} (wf : WF hf t) {k : α} :
    (ds_htable_lookup_by_key hf t k).isSome = true ↔ k ∈ htable_keys t :=
  has_key_iff_mem_keys wf

theorem filterMap_length_of_isSome {γ : Type u} {δ : Type v} (f : γ → Option δ) :
    ∀ (l : List γ), (∀ a ∈ l, (f a).isSome) → (l.filterMap f).length = l.length
  | [], _ => rfl
  | a :: l, h => by
    cases hfa : f a with
    | none =>
      have := h a (List.mem_cons_self _ _)
      rw [hfa] at this
      cases this
    | some b =>
      rw [List.filterMap_cons, hfa, List.length_cons, List.length_cons,
        filterMap_length_of_isSome f l (fun x hx => h x (List.mem_cons_of_mem _ hx))]

theorem pairs_length {hf : α → Nat} {t : ds_htable α β} (wf : WF hf t) :
    (htable_pairs t).length = t.size := by
  rw [htable_pairs_eq t wf.next_le_buckets, wf.size_eq]
  apply filterMap_length_of_isSome
  intro i hi
  obtain ⟨k0, hk0, _⟩ := wf.live_hash i hi
  obtain ⟨v0, hv0⟩ := Option.isSome_iff_exists.mp (wf.live_value i hi)
  rw [hk0, hv0]
  rfl

theorem nodup_filterMap_of {γ : Type v} {l : List Nat} (g : Nat → Option γ)
    (hnd : l.Nodup)
    (hinj : ∀ a ∈ l, ∀ b ∈ l, ∀ x, g a = some x → g b = some x → a = b) :
    (l.filterMap g).Nodup := by
  induction l with
  | nil => exact List.nodup_nil
  | cons a l ih =>
    obtain ⟨hal, hndl⟩ := List.nodup_cons.mp hnd
    have ihl := ih hndl (fun x hx y hy => hinj x (List.mem_cons_of_mem _ hx)
      y (List.mem_cons_of_mem _ hy))
    rw [List.filterMap_cons]
    cases hga : g a with
    | none => exact ihl
    | some x =>
      apply List.nodup_cons.mpr
      refine ⟨?_, ihl⟩
      intro hmem
      obtain ⟨b, hb, hgb⟩ := List.mem_filterMap.mp hmem
      have := hinj a (List.mem_cons_self _ _) b (List.mem_cons_of_mem _ hb) x hga hgb
      rw [this] at hal
      exact hal hb

theorem liveIndices_nodup (t : ds_htable α β) : (liveIndices t).Nodup :=
  (List.nodup_range t.next).filter _

theorem keys_nodup {hf : α → Nat} {t : ds_htable α β} (wf : WF hf t) :
    (htable_keys t).Nodup := by
  rw [htable_keys, htable_pairs_eq t wf.next_le_buckets, List.map_filterMap]
  apply nodup_filterMap_of _ (liveIndices_nodup t)
  intro a ha b hb x hga hgb
  have hkey : ∀ c ∈ liveIndices t, ∀ y,
      Option.map Prod.fst ((bucketAt t c).key.bind
        (fun k => (bucketAt t c).value.map (fun v => (k, v)))) = some y →
      (bucketAt t c).key = some y := by
    intro c hc y hy
    cases hkc : (bucketAt t c).key with
    | none => rw [hkc] at hy; cases hy
    | some k0 =>
      cases hvc : (bucketAt t c).value with
      | none => rw [hkc, hvc] at hy; cases hy
      | some v0 =>
        rw [hkc, hvc] at hy
        have hk0y : k0 = y := by simpa using hy
        rw [hk0y]
  exact wf.key_uniq a ha b hb ((hkey a ha x hga).trans (hkey b hb x hgb).symm)

theorem pairs_new : htable_pairs (ds_htable_new α β) = [] := rfl

theorem keys_new : htable_keys (ds_htable_new α β) = [] := rfl

theorem from_pairs_loop [DecidableEq α] (hf : α → Nat) :
    ∀ (l : List (α × β)) (t : ds_htable α β), WF hf t → t.minDeleted = none →
      (∀ p ∈ l, p.1 ∉ htable_keys t) → (l.map Prod.fst).Nodup →
      WF hf (l.foldl (fun t kv => ds_htable_put hf t kv.1 kv.2) t) ∧
      (l.foldl (fun t kv => ds_htable_put hf t kv.1 kv.2) t).minDeleted = none ∧
      (l.foldl (fun t kv => ds_htable_put hf t kv.1 kv.2) t).next = t.next + l.length ∧
      (l.foldl (fun t kv => ds_htable_put hf t kv.1 kv.2) t).size = t.size + l.length ∧
      htable_pairs (l.foldl (fun t kv => ds_htable_put hf t kv.1 kv.2) t) =
        htable_pairs t ++ l
  | [], t, wf, hmd, _, _ => ⟨wf, hmd, rfl, rfl, by simp⟩
  | (k, v) :: l, t, wf, hmd, hfresh, hnd => by
    have hknot : k ∉ htable_keys t := hfresh (k, v) (List.mem_cons_self _ _)
    have hfind : ds_htable_lookup_by_key hf t k = none := by
      cases hl : ds_htable_lookup_by_key hf t k with
      | none => rfl
      | some i =>
        exact absurd ((lookup_isSome_iff_mem_keys wf).mp (by rw [hl]; rfl)) hknot
    obtain ⟨hwf1, hsz1, hnx1, hmd1, hpairs1⟩ := put_miss_none_spec wf hfind hmd v
    rw [List.map_cons] at hnd
    obtain ⟨hndk, hndl⟩ := List.nodup_cons.mp hnd
    have hfresh1 : ∀ p ∈ l, p.1 ∉ htable_keys (ds_htable_put hf t k v) := by
      intro p hp hmem
      rw [htable_keys, hpairs1, List.map_append] at hmem
      rcases List.mem_append.mp hmem with h | h
      · exact hfresh p (List.mem_cons_of_mem _ hp) h
      · simp only [List.map_cons, List.map_nil, List.mem_singleton] at h
        apply hndk
        rw [← h]
        exact List.mem_map.mpr ⟨p, hp, rfl⟩
    obtain ⟨hwfN, hmdN, hnxN, hszN, hpairsN⟩ :=
      from_pairs_loop hf l (ds_htable_put hf t k v) hwf1 hmd1 hfresh1 hndl
    simp only [List.foldl_cons]
    refine ⟨hwfN, hmdN, ?_, ?_, ?_⟩
    · rw [hnxN, hnx1, List.length_cons]
      omega
    · rw [hszN, hsz1, List.length_cons]
      omega
    · rw [hpairsN, hpairs1, List.append_assoc]
      rfl

theorem from_pairs_spec [DecidableEq α] (hf : α → Nat) (l : List (α × β))
    (hnd : (l.map Prod.fst).Nodup) :
    WF hf (ds_htable_from_pairs hf l) ∧
    (ds_htable_from_pairs hf l).minDeleted = none ∧
    (ds_htable_from_pairs hf l).next = l.length ∧
    (ds_htable_from_pairs hf l).size = l.length ∧
    htable_pairs (ds_htable_from_pairs hf l) = l := by
  obtain ⟨h1, h2, h3, h4, h5⟩ :=
    from_pairs_loop hf l (ds_htable_new α β) (wf_new hf) rfl
      (fun p _ hmem => by rw [keys_new] at hmem; cases hmem) hnd
  have hnew : (ds_htable_new α β).next = 0 := rfl
  have hnews : (ds_htable_new α β).size = 0 := rfl
  refine ⟨h1, h2, ?_, ?_, ?_⟩
  · show (l.foldl (fun t kv => ds_htable_put hf t kv.1 kv.2)
      (ds_htable_new α β)).next = l.length
    omega
  · show (l.foldl (fun t kv => ds_htable_put hf t kv.1 kv.2)
      (ds_htable_new α β)).size = l.length
    omega
  · show htable_pairs (l.foldl (fun t kv => ds_htable_put hf t kv.1 kv.2)
      (ds_htable_new α β)) = l
    rw [h5, pairs_new, List.nil_append]

/-! ## Keys after a fold of puts -/

theorem put_fold_keys [DecidableEq α] (hf : α → Nat) :
    ∀ (ops : List (α × β)) (t : ds_htable α β), WF hf t → t.minDeleted = none →
      WF hf (ops.foldl (fun t kv => ds_htable_put hf t kv.1 kv.2) t) ∧
      (ops.foldl (fun t kv => ds_htable_put hf t kv.1 kv.2) t).minDeleted = none ∧
      htable_keys (ops.foldl (fun t kv => ds_htable_put hf t kv.1 kv.2) t) =
        ops.foldl (fun acc kv => if kv.1 ∈ acc then acc else acc ++ [kv.1])
          (htable_keys t)
  | [], t, wf, hmd => ⟨wf, hmd, rfl⟩
  | (k, v) :: ops, t, wf, hmd => by
    simp only [List.foldl_cons]
    by_cases hk : k ∈ htable_keys t
    · obtain ⟨i, hfind⟩ := Option.isSome_iff_exists.mp
        ((lookup_isSome_iff_mem_keys wf).mpr hk)
      obtain ⟨hwf1, _, _, _, hmd1, hpairs1⟩ := put_found_spec wf hfind v
      have hkeys1 : htable_keys (ds_htable_put hf t k v) = htable_keys t := by
        rw [htable_keys, hpairs1, List.map_map, htable_keys]
        apply List.map_congr_left
        intro p hp
        by_cases hpk : p.1 = k
        · simp [Function.comp, hpk]
        · simp [Function.comp, hpk]
      obtain ⟨hwfN, hmdN, hkeysN⟩ :=
        put_fold_keys hf ops (ds_htable_put hf t k v) hwf1 (by rw [hmd1, hmd])
      refine ⟨hwfN, hmdN, ?_⟩
      rw [hkeysN, hkeys1, if_pos hk]
    · have hfind : ds_htable_lookup_by_key hf t k = none := by
        cases hl : ds_htable_lookup_by_key hf t k with
        | none => rfl
        | some i =>
          exact absurd ((lookup_isSome_iff_mem_keys wf).mp (by rw [hl]; rfl)) hk
      obtain ⟨hwf1, _, _, hmd1, hpairs1⟩ := put_miss_none_spec wf hfind hmd v
      have hkeys1 : htable_keys (ds_htable_put hf t k v) = htable_keys t ++ [k] := by
        rw [htable_keys, hpairs1, List.map_append, htable_keys]
        rfl
      obtain ⟨hwfN, hmdN, hkeysN⟩ :=
        put_fold_keys hf ops (ds_htable_put hf t k v) hwf1 hmd1
      refine ⟨hwfN, hmdN, ?_⟩
      rw [hkeysN, hkeys1, if_neg hk]

/-! ## C2 -/

/-- C2: for every sequence of puts starting from a fresh table (no removes),
forward iteration — ascending arena order skipping tombstoned buckets, the
`DS_HTABLE_FOREACH_BUCKET` order from which `htable_keys` is read — yields
the keys in exactly the order in which each key was first inserted. -/
theorem put_sequence_preserves_insertion_order [DecidableEq α] (hf : α → Nat)
    (ops : List (α × β)) :
    htable_keys (ops.foldl (fun t kv => ds_htable_put hf t kv.1 kv.2)
      (ds_htable_new α β)) =
    ops.foldl (fun acc kv => if kv.1 ∈ acc then acc else acc ++ [kv.1]) [] := by
  have h := (put_fold_keys hf ops (ds_htable_new α β) (wf_new hf) rfl).2.2
  rw [h, keys_new]

/-! ## C3 -/

/-- C3: after `put(k, v1)` then `put(k, v2)`, the second put leaves `size`
and `next` unchanged (no second bucket is created for the existing key),
`get(k)` returns `v2`, and the key order of forward iteration — hence `k`'s
position in it — is unchanged. -/
theorem put_existing_key_updates_in_place [DecidableEq α] {hf : α → Nat}
    {t : ds_htable α β} (wf : WF hf t) (k : α) (v1 v2 : β) :
    (ds_htable_put hf (ds_htable_put hf t k v1) k v2).size =
      (ds_htable_put hf t k v1).size ∧
    (ds_htable_put hf (ds_htable_put hf t k v1) k v2).next =
      (ds_htable_put hf t k v1).next ∧
    ds_htable_get hf (ds_htable_put hf (ds_htable_put hf t k v1) k v2) k = some v2 ∧
    htable_keys (ds_htable_put hf (ds_htable_put hf t k v1) k v2) =
      htable_keys (ds_htable_put hf t k v1) := by
  have hwf1 : WF hf (ds_htable_put hf t k v1) := wf_put wf k v1
  have hget1 : ds_htable_get hf (ds_htable_put hf t k v1) k = some v1 :=
    get_put_self wf k v1
  have hfind : ∃ i, ds_htable_lookup_by_key hf (ds_htable_put hf t k v1) k = some i := by
    rw [ds_htable_get] at hget1
    obtain ⟨i, hi, _⟩ := Option.bind_eq_some.mp hget1
    exact ⟨i, hi⟩
  obtain ⟨i, hfind⟩ := hfind
  obtain ⟨hwf2, hsz, hnx, _, _, hpairs⟩ := put_found_spec hwf1 hfind v2
  refine ⟨hsz, hnx, get_put_self hwf1 k v2, ?_⟩
  rw [htable_keys, hpairs, List.map_map, htable_keys]
  apply List.map_congr_left
  intro p hp
  by_cases hpk : p.1 = k
  · simp [Function.comp, hpk]
  · simp [Function.comp, hpk]

/-- Witness for C3 at a concrete table and key. -/
theorem put_existing_key_updates_in_place_witness :
    WF scenario_hash (ds_htable_new String Nat) ∧
    ((ds_htable_put scenario_hash
        (ds_htable_put scenario_hash (ds_htable_new String Nat) "a" 1) "a" 2).size =
      (ds_htable_put scenario_hash (ds_htable_new String Nat) "a" 1).size ∧
     (ds_htable_put scenario_hash
        (ds_htable_put scenario_hash (ds_htable_new String Nat) "a" 1) "a" 2).next =
      (ds_htable_put scenario_hash (ds_htable_new String Nat) "a" 1).next ∧
     ds_htable_get scenario_hash (ds_htable_put scenario_hash
        (ds_htable_put scenario_hash (ds_htable_new String Nat) "a" 1) "a" 2) "a" =
      some 2 ∧
     htable_keys (ds_htable_put scenario_hash
        (ds_htable_put scenario_hash (ds_htable_new String Nat) "a" 1) "a" 2) =
      htable_keys (ds_htable_put scenario_hash (ds_htable_new String Nat) "a" 1)) :=
  ⟨wf_new scenario_hash,
    put_existing_key_updates_in_place (wf_new scenario_hash) "a" 1 2⟩

/-! ## C4 -/

/-- C4: for a packed well-formed table, the serialized form carries the pair
count (`size`, which for a packed table equals `next`) and unserialize of it
succeeds, rebuilding by repeated `put` in the encoded order a table with
identical key/value pairs in identical order. -/
theorem serialize_unserialize_round_trip [DecidableEq α] {hf : α → Nat}
    {t : ds_htable α β} (wf : WF hf t) (hpacked : DS_HTABLE_IS_PACKED t) :
    (ds_htable_serialize t).1 = t.next ∧
    ∃ t2, ds_htable_unserialize hf (ds_htable_serialize t) = some t2 ∧
      htable_pairs t2 = htable_pairs t := by
  have hlen : (htable_pairs t).length = t.size := pairs_length wf
  refine ⟨hpacked, ds_htable_from_pairs hf (htable_pairs t), ?_, ?_⟩
  · have hc : (ds_htable_serialize t).1 = (ds_htable_serialize t).2.length := by
      show t.size = (htable_pairs t).length
      rw [hlen]
    rw [ds_htable_unserialize, if_pos hc]
    rfl
  · exact (from_pairs_spec hf (htable_pairs t) (keys_nodup wf)).2.2.2.2

/-- Witness for C4 at a concrete packed two-entry table whose keys collide
under `scenario_hash`. -/
theorem serialize_unserialize_round_trip_witness :
    WF scenario_hash (ds_htable_from_pairs scenario_hash [("a", 1), ("b", 2)]) ∧
    DS_HTABLE_IS_PACKED (ds_htable_from_pairs scenario_hash [("a", 1), ("b", 2)]) ∧
    ((ds_htable_serialize
        (ds_htable_from_pairs scenario_hash [("a", 1), ("b", 2)])).1 =
      (ds_htable_from_pairs scenario_hash [("a", 1), ("b", 2)]).next ∧
     ∃ t2, ds_htable_unserialize scenario_hash
        (ds_htable_serialize
          (ds_htable_from_pairs scenario_hash [("a", 1), ("b", 2)])) = some t2 ∧
       htable_pairs t2 =
        htable_pairs (ds_htable_from_pairs scenario_hash [("a", 1), ("b", 2)])) :=
  ⟨(from_pairs_spec scenario_hash [("a", 1), ("b", 2)] (by decide)).1,
   by decide,
   serialize_unserialize_round_trip
     (from_pairs_spec scenario_hash [("a", 1), ("b", 2)] (by decide)).1
     (by decide)⟩

/-! ## C6 -/

/-- C6: for well-formed tables `a`, `b` with disjoint key sets, `merge(a,b)`
has size `|a| + |b|`, `intersect(a,b)` is empty, `xor(a,b)` has the same
entries in the same order as `merge(a,b)`, and `diff(a,b)` has the same
entries in the same order as `a`. (All four build fresh tables from their
inputs; the inputs `a`, `b` are untouched by construction.) -/
theorem disjoint_set_algebra_laws [DecidableEq α] {hf : α → Nat}
    {a b : ds_htable α β} (wfa : WF hf a) (wfb : WF hf b)
    (hdisj : ∀ k ∈ htable_keys a, k ∉ htable_keys b) :
    (ds_htable_merge hf a b).size = a.size + b.size ∧
    (ds_htable_intersect hf a b).size = 0 ∧
    htable_pairs (ds_htable_intersect hf a b) = [] ∧
    htable_pairs (ds_htable_xor hf a b) = htable_pairs (ds_htable_merge hf a b) ∧
    htable_pairs (ds_htable_diff hf a b) = htable_pairs a := by
  have hkb : ∀ p ∈ htable_pairs a, ds_htable_has_key hf b p.1 = false := by
    intro p hp
    cases h : ds_htable_has_key hf b p.1 with
    | false => rfl
    | true =>
      exact absurd ((has_key_iff_mem_keys wfb).mp h)
        (hdisj p.1 (List.mem_map.mpr ⟨p, hp, rfl⟩))
  have hka : ∀ p ∈ htable_pairs b, ds_htable_has_key hf a p.1 = false := by
    intro p hp
    cases h : ds_htable_has_key hf a p.1 with
    | false => rfl
    | true =>
      exact absurd (List.mem_map.mpr ⟨p, hp, rfl⟩)
        (hdisj p.1 ((has_key_iff_mem_keys wfa).mp h))
  have hnda : ((htable_pairs a).map Prod.fst).Nodup := keys_nodup wfa
  have hndb : ((htable_pairs b).map Prod.fst).Nodup := keys_nodup wfb
  have hfa : (htable_pairs a).filter (fun kv => !ds_htable_has_key hf b kv.1) =
      htable_pairs a :=
    List.filter_eq_self.mpr (fun p hp => by rw [hkb p hp]; rfl)
  have hfb : (htable_pairs b).filter (fun kv => !ds_htable_has_key hf a kv.1) =
      htable_pairs b :=
    List.filter_eq_self.mpr (fun p hp => by rw [hka p hp]; rfl)
  have hfi : (htable_pairs a).filter (fun kv => ds_htable_has_key hf b kv.1) = [] :=
    List.filter_eq_nil_iff.mpr (fun p hp => by rw [hkb p hp]; exact Bool.false_ne_true)
  obtain ⟨hwfc, hmdc, _, hszc, hpc⟩ := from_pairs_spec hf (htable_pairs a) hnda
  have hfresh : ∀ p ∈ htable_pairs b, p.1 ∉ htable_keys (ds_htable_clone hf a) := by
    intro p hp hmem
    have hkeysc : htable_pairs (ds_htable_clone hf a) = htable_pairs a := hpc
    rw [htable_keys, hkeysc] at hmem
    exact hdisj p.1 hmem (List.mem_map.mpr ⟨p, hp, rfl⟩)
  obtain ⟨_, _, _, hszm, hpm⟩ :=
    from_pairs_loop hf (htable_pairs b) (ds_htable_clone hf a) hwfc hmdc hfresh hndb
  refine ⟨?_, ?_, ?_, ?_, ?_⟩
  · show ((htable_pairs b).foldl (fun t kv => ds_htable_put hf t kv.1 kv.2)
      (ds_htable_clone hf a)).size = a.size + b.size
    rw [hszm]
    have h1 : (ds_htable_clone hf a).size = (htable_pairs a).length := hszc
    rw [h1, pairs_length wfa, pairs_length wfb]
  · show (ds_htable_intersect hf a b).size = 0
    simp only [ds_htable_intersect]
    rw [hfi]
    rfl
  · show htable_pairs (ds_htable_intersect hf a b) = []
    simp only [ds_htable_intersect]
    rw [hfi]
    rfl
  · have hx : htable_pairs (ds_htable_xor hf a b) =
        htable_pairs a ++ htable_pairs b := by
      simp only [ds_htable_xor]
      rw [hfa, hfb]
      have hnd : ((htable_pairs a ++ htable_pairs b).map Prod.fst).Nodup := by
        rw [List.map_append]
        exact List.Nodup.append hnda hndb (fun k h1 h2 => hdisj k h1 h2)
      exact (from_pairs_spec hf _ hnd).2.2.2.2
    have hm : htable_pairs (ds_htable_merge hf a b) =
        htable_pairs a ++ htable_pairs b := by
      show htable_pairs ((htable_pairs b).foldl
        (fun t kv => ds_htable_put hf t kv.1 kv.2) (ds_htable_clone hf a)) = _
      rw [hpm]
      congr 1
    rw [hx, hm]
  · show htable_pairs (ds_htable_diff hf a b) = htable_pairs a
    simp only [ds_htable_diff]
    rw [hfa]
    exact (from_pairs_spec hf (htable_pairs a) hnda).2.2.2.2

/-- Witness for C6 at concrete disjoint one-entry tables. -/
theorem disjoint_set_algebra_laws_witness :
    WF scenario_hash c6_a ∧ WF scenario_hash c6_b ∧
    (∀ k ∈ htable_keys c6_a, k ∉ htable_keys c6_b) ∧
    ((ds_htable_merge scenario_hash c6_a c6_b).size = c6_a.size + c6_b.size ∧
     (ds_htable_intersect scenario_hash c6_a c6_b).size = 0 ∧
     htable_pairs (ds_htable_intersect scenario_hash c6_a c6_b) = [] ∧
     htable_pairs (ds_htable_xor scenario_hash c6_a c6_b) =
       htable_pairs (ds_htable_merge scenario_hash c6_a c6_b) ∧
     htable_pairs (ds_htable_diff scenario_hash c6_a c6_b) = htable_pairs c6_a) :=
  ⟨(from_pairs_spec scenario_hash [("a", 1)] (by decide)).1,
   (from_pairs_spec scenario_hash [("bb", 2)] (by decide)).1,
   by decide,
   disjoint_set_algebra_laws
     (from_pairs_spec scenario_hash [("a", 1)] (by decide)).1
     (from_pairs_spec scenario_hash [("bb", 2)] (by decide)).1
     (by decide)⟩

/-! ## C7 -/

/-- C7: positional access `ds_htable_lookup_by_position` fails (returns the
out-of-range condition, modelled as `none`) exactly when `i >= size`, and
otherwise returns the `i`-th live bucket of forward iteration order, 0-based,
with no clamping — including on the packed fast path that indexes the arena
directly; `ds_htable_slice`, by contrast, clamps its bounds: a length
reaching past the end is truncated to the table, so an in-range start with an
oversized length yields exactly the tail of the entries from that start. -/
theorem by_position_and_slice_spec [DecidableEq α] {hf : α → Nat}
    {t : ds_htable α β} (wf : WF hf t) (i : Nat) (index length : Int)
    (h0 : 0 ≤ index) (hin : index ≤ (t.size : Int))
    (hlen : (t.size : Int) - index ≤ length) :
    (ds_htable_lookup_by_position t i = none ↔ t.size ≤ i) ∧
    (i < t.size → ds_htable_lookup_by_position t i =
      (DS_HTABLE_FOREACH_BUCKET_list t).get? i) ∧
    htable_pairs (ds_htable_slice hf t index length) =
      (htable_pairs t).drop index.toNat := by
  have hFBlen : (DS_HTABLE_FOREACH_BUCKET_list t).length = t.size := by
    rw [foreach_bucket_eq_map t wf.next_le_buckets, List.length_map, wf.size_eq]
  have hbl : t.buckets.length = t.capacity := wf.buckets_len
  have hsn : t.size ≤ t.next := wf.size_le_next
  have hnc : t.next ≤ t.capacity := wf.next_le
  refine ⟨⟨?_, ?_⟩, ?_, ?_⟩
  · intro hnone
    by_contra hlt
    push_neg at hlt
    rw [ds_htable_lookup_by_position, if_neg (Nat.not_le.mpr hlt)] at hnone
    by_cases hp : t.size = t.next
    · rw [if_pos hp] at hnone
      have hge := List.get?_eq_none.mp hnone
      omega
    · rw [if_neg hp] at hnone
      have hge := List.get?_eq_none.mp hnone
      rw [hFBlen] at hge
      omega
  · intro hge
    rw [ds_htable_lookup_by_position, if_pos hge]
  · intro hi
    rw [ds_htable_lookup_by_position, if_neg (Nat.not_le.mpr hi)]
    by_cases hp : t.size = t.next
    · rw [if_pos hp]
      have hall : DS_HTABLE_FOREACH_BUCKET_list t = t.buckets.take t.next := by
        apply List.Sublist.eq_of_length (List.filter_sublist _)
        show (DS_HTABLE_FOREACH_BUCKET_list t).length = (t.buckets.take t.next).length
        rw [hFBlen, List.length_take, hbl, Nat.min_eq_left hnc, hp]
      rw [hall, List.get?_eq_getElem?, List.get?_eq_getElem?,
        List.getElem?_take_of_lt (hp ▸ hi)]
    · rw [if_neg hp]
  · have hl0 : ¬ length < 0 := by omega
    have hni : ¬ index < 0 := by omega
    simp only [ds_htable_slice]
    rw [if_neg hni, min_eq_left hin, if_neg hl0, min_eq_right hlen]
    have hplen : (htable_pairs t).length = t.size := pairs_length wf
    have htake : ((htable_pairs t).drop index.toNat).take
        ((t.size : Int) - index).toNat = (htable_pairs t).drop index.toNat := by
      apply List.take_of_length_le
      rw [List.length_drop, hplen]
      omega
    rw [htake]
    have hnd : (((htable_pairs t).drop index.toNat).map Prod.fst).Nodup := by
      exact (keys_nodup wf).sublist
        ((List.drop_sublist _ _).map Prod.fst)
    exact (from_pairs_spec hf _ hnd).2.2.2.2

/-- Witness for C7 at a concrete two-entry table with position 0 and slice
bounds (1, 5): the length 5 reaches past the end and is clamped. -/
theorem by_position_and_slice_spec_witness :
    WF scenario_hash (ds_htable_from_pairs scenario_hash [("a", 1), ("cc", 3)]) ∧
    (0 : Int) ≤ 1 ∧
    (1 : Int) ≤ ((ds_htable_from_pairs scenario_hash [("a", 1), ("cc", 3)]).size : Int) ∧
    (((ds_htable_from_pairs scenario_hash [("a", 1), ("cc", 3)]).size : Int) - 1 ≤ 5) ∧
    ((ds_htable_lookup_by_position
        (ds_htable_from_pairs scenario_hash [("a", 1), ("cc", 3)]) 0 = none ↔
      (ds_htable_from_pairs scenario_hash [("a", 1), ("cc", 3)]).size ≤ 0) ∧
     (0 < (ds_htable_from_pairs scenario_hash [("a", 1), ("cc", 3)]).size →
      ds_htable_lookup_by_position
        (ds_htable_from_pairs scenario_hash [("a", 1), ("cc", 3)]) 0 =
      (DS_HTABLE_FOREACH_BUCKET_list
        (ds_htable_from_pairs scenario_hash [("a", 1), ("cc", 3)])).get? 0) ∧
     htable_pairs (ds_htable_slice scenario_hash
        (ds_htable_from_pairs scenario_hash [("a", 1), ("cc", 3)]) 1 5) =
      (htable_pairs (ds_htable_from_pairs scenario_hash [("a", 1), ("cc", 3)])).drop
        (1 : Int).toNat) :=
  ⟨(from_pairs_spec scenario_hash [("a", 1), ("cc", 3)] (by decide)).1,
   by decide, by decide, by decide,
   by_position_and_slice_spec
     (from_pairs_spec scenario_hash [("a", 1), ("cc", 3)] (by decide)).1
     0 1 5 (by decide) (by decide) (by decide)⟩

/-! ## C5 -/

/-- Folding `DS_HTABLE_BUCKET_REHASH` over a list of distinct in-bounds arena
indices that all map to the same lookup slot turns that slot's chain `L` into
`idxs.reverse ++ L`: each head insertion prepends, so the chain ends up in
the reverse of (re)insertion order. -/
theorem rehash_fold_reverse {slot mask : Nat} :
    ∀ (idxs : List Nat) (t : ds_htable α β) (L : List Nat),
      slot < t.lookup.length →
      (∀ i ∈ idxs, i < t.buckets.length ∧ (bucketAt t i).hash &&& mask = slot) →
      idxs.Nodup → (∀ i ∈ idxs, i ∉ L) →
      HtChain t.buckets (t.lookup.getD slot none) L →
      HtChain (idxs.foldl (fun s i => DS_HTABLE_BUCKET_REHASH s mask i) t).buckets
        ((idxs.foldl (fun s i => DS_HTABLE_BUCKET_REHASH s mask i) t).lookup.getD
          slot none) (idxs.reverse ++ L)
  | [], t, L, _, _, _, _, hL => by simpa using hL
  | i :: idxs, t, L, hs, hb, hnd, hfresh, hL => by
    obtain ⟨hilt, hislot⟩ := hb i (List.mem_cons_self _ _)
    obtain ⟨hndi, hndr⟩ := List.nodup_cons.mp hnd
    have hset : (DS_HTABLE_BUCKET_REHASH t mask i).buckets =
        t.buckets.set i { bucketAt t i with
          chainNext := t.lookup.getD ((bucketAt t i).hash &&& mask) none } := rfl
    have hchain1 : HtChain (DS_HTABLE_BUCKET_REHASH t mask i).buckets
        ((DS_HTABLE_BUCKET_REHASH t mask i).lookup.getD slot none) (i :: L) := by
      have hhead : (DS_HTABLE_BUCKET_REHASH t mask i).lookup.getD slot none =
          some i := by
        show (t.lookup.set ((bucketAt t i).hash &&& mask) (some i)).getD slot none =
          some i
        rw [hislot, getD_set_self hs]
      rw [hhead, hset]
      refine HtChain.cons (List.getElem?_set_self hilt) ?_
      show HtChain _ (t.lookup.getD ((bucketAt t i).hash &&& mask) none) L
      rw [hislot]
      exact isChain_set_of_notMem hL (hfresh i (List.mem_cons_self _ _))
    have hsu : slot < (DS_HTABLE_BUCKET_REHASH t mask i).lookup.length := by
      show slot < (t.lookup.set _ _).length
      rw [List.length_set]
      exact hs
    have hbu : ∀ j ∈ idxs, j < (DS_HTABLE_BUCKET_REHASH t mask i).buckets.length ∧
        (bucketAt (DS_HTABLE_BUCKET_REHASH t mask i) j).hash &&& mask = slot := by
      intro j hj
      have hij : i ≠ j := fun e => hndi (by rw [e]; exact hj)
      obtain ⟨h1, h2⟩ := hb j (List.mem_cons_of_mem _ hj)
      constructor
      · rw [hset, List.length_set]
        exact h1
      · have hagree : bucketAt (DS_HTABLE_BUCKET_REHASH t mask i) j = bucketAt t j := by
          rw [bucketAt, hset, getD_set_ne hij]
          rfl
        rw [hagree]
        exact h2
    have hfreshu : ∀ j ∈ idxs, j ∉ (i :: L) := by
      intro j hj hmem
      rcases List.mem_cons.mp hmem with h | h
      · exact hndi (by rw [← h]; exact hj)
      · exact hfresh j (List.mem_cons_of_mem _ hj) h
    have hrec := rehash_fold_reverse idxs (DS_HTABLE_BUCKET_REHASH t mask i)
      (i :: L) hsu hbu hndr hfreshu hchain1
    simp only [List.foldl_cons]
    rw [List.reverse_cons, List.append_assoc]
    simpa using hrec

/-- C5: `DS_HTABLE_BUCKET_REHASH t mask idx` performs head insertion: the
rehashed bucket's `chainNext` is set to the current head of the chain for its
hash's slot, and that head is overwritten with `idx`; consequently, rehashing
a sequence of distinct fresh buckets into one slot leaves the slot's chain
equal to the reverse of the order in which they were (re)inserted. -/
theorem rehash_head_insertion_reverse_order (t : ds_htable α β)
    (mask idx : Nat) (hidx : idx < t.buckets.length)
    (hslot : (bucketAt t idx).hash &&& mask < t.lookup.length)
    (idxs : List Nat) (L : List Nat) (slot : Nat)
    (hs : slot < t.lookup.length)
    (hb : ∀ i ∈ idxs, i < t.buckets.length ∧ (bucketAt t i).hash &&& mask = slot)
    (hnd : idxs.Nodup) (hfresh : ∀ i ∈ idxs, i ∉ L)
    (hL : HtChain t.buckets (t.lookup.getD slot none) L) :
    (bucketAt (DS_HTABLE_BUCKET_REHASH t mask idx) idx).chainNext =
      t.lookup.getD ((bucketAt t idx).hash &&& mask) none ∧
    (DS_HTABLE_BUCKET_REHASH t mask idx).lookup.getD
      ((bucketAt t idx).hash &&& mask) none = some idx ∧
    HtChain (idxs.foldl (fun s i => DS_HTABLE_BUCKET_REHASH s mask i) t).buckets
      ((idxs.foldl (fun s i => DS_HTABLE_BUCKET_REHASH s mask i) t).lookup.getD
        slot none) (idxs.reverse ++ L) := by
  refine ⟨?_, ?_, rehash_fold_reverse idxs t L hs hb hnd hfresh hL⟩
  · show ((t.buckets.set idx { bucketAt t idx with
      chainNext := t.lookup.getD ((bucketAt t idx).hash &&& mask) none }).getD
        idx default).chainNext = _
    rw [getD_set_self hidx]
  · show (t.lookup.set ((bucketAt t idx).hash &&& mask) (some idx)).getD
      ((bucketAt t idx).hash &&& mask) none = some idx
    rw [getD_set_self hslot]

/-- Witness for C5 at the fresh table, mask 7, slot 0, rehashing arena
indices 1 then 2 into the empty chain: the chain ends as [2, 1]. -/
theorem rehash_head_insertion_reverse_order_witness :
    (2 < (ds_htable_new String Nat).buckets.length ∧
     (bucketAt (ds_htable_new String Nat) 2).hash &&& 7 <
       (ds_htable_new String Nat).lookup.length ∧
     0 < (ds_htable_new String Nat).lookup.length ∧
     (∀ i ∈ [1, 2], i < (ds_htable_new String Nat).buckets.length ∧
       (bucketAt (ds_htable_new String Nat) i).hash &&& 7 = 0) ∧
     List.Nodup [1, 2] ∧ (∀ i ∈ [1, 2], i ∉ ([] : List Nat)) ∧
     HtChain (ds_htable_new String Nat).buckets
       ((ds_htable_new String Nat).lookup.getD 0 none) []) ∧
    ((bucketAt (DS_HTABLE_BUCKET_REHASH (ds_htable_new String Nat) 7 2) 2).chainNext =
       (ds_htable_new String Nat).lookup.getD
         ((bucketAt (ds_htable_new String Nat) 2).hash &&& 7) none ∧
     (DS_HTABLE_BUCKET_REHASH (ds_htable_new String Nat) 7 2).lookup.getD
       ((bucketAt (ds_htable_new String Nat) 2).hash &&& 7) none = some 2 ∧
     HtChain ([1, 2].foldl (fun s i => DS_HTABLE_BUCKET_REHASH s 7 i)
         (ds_htable_new String Nat)).buckets
       (([1, 2].foldl (fun s i => DS_HTABLE_BUCKET_REHASH s 7 i)
         (ds_htable_new String Nat)).lookup.getD 0 none)
       ([1, 2].reverse ++ [])) := by
  have hL : HtChain (ds_htable_new String Nat).buckets
      ((ds_htable_new String Nat).lookup.getD 0 none) [] := by
    rw [show (ds_htable_new String Nat).lookup.getD 0 none = none from rfl]
    exact HtChain.nil
  exact ⟨⟨by decide, by decide, by decide, by decide, by decide, by decide, hL⟩,
    rehash_head_insertion_reverse_order (ds_htable_new String Nat) 7 2
      (by decide) (by decide) [1, 2] [] 0 (by decide) (by decide) (by decide)
      (by decide) hL⟩

/-! ## C8 -/

/-- C8: the table invariants hold of every well-formed table — `size` (the
count of live buckets) never exceeds `next`, `capacity` is a power of two of
at least `DS_HTABLE_MIN_CAPACITY = 8`, and the table is packed
(`size == next`) exactly when no tombstoned bucket exists below `next` — and
well-formedness is preserved by every operation: `new`, `put`, `remove`,
`clone`, `merge`, `diff`, `intersect`, `xor`, `slice`, and table
reconstruction from a pair list with distinct keys (the decode path of
`unserialize`). -/
theorem operations_preserve_invariants [DecidableEq α] {hf : α → Nat}
    {t u : ds_htable α β} (wf : WF hf t) (wfu : WF hf u) (k : α) (v : β)
    (l : List (α × β)) (hnd : (l.map Prod.fst).Nodup) (index length : Int) :
    (t.size ≤ t.next ∧ DS_HTABLE_MIN_CAPACITY ≤ t.capacity ∧
      (∃ m, t.capacity = 2 ^ m) ∧
      (DS_HTABLE_IS_PACKED t ↔
        ∀ b ∈ t.buckets.take t.next, ¬ DS_HTABLE_BUCKET_DELETED b)) ∧
    WF hf (ds_htable_new α β) ∧
    WF hf (ds_htable_put hf t k v) ∧
    WF hf (ds_htable_remove hf t k).1 ∧
    WF hf (ds_htable_clone hf t) ∧
    WF hf (ds_htable_merge hf t u) ∧
    WF hf (ds_htable_diff hf t u) ∧
    WF hf (ds_htable_intersect hf t u) ∧
    WF hf (ds_htable_xor hf t u) ∧
    WF hf (ds_htable_slice hf t index length) ∧
    WF hf (ds_htable_from_pairs hf l) := by
  have hclone : WF hf (ds_htable_clone hf t) :=
    (from_pairs_spec hf (htable_pairs t) (keys_nodup wf)).1
  have hpacked_iff : DS_HTABLE_IS_PACKED t ↔
      ∀ b ∈ t.buckets.take t.next, ¬ DS_HTABLE_BUCKET_DELETED b := by
    constructor
    · intro hpk b hb
      rw [take_next_eq t wf.next_le_buckets] at hb
      obtain ⟨i, hi, rfl⟩ := List.mem_map.mp hb
      have hrange : liveIndices t = List.range t.next := by
        apply List.Sublist.eq_of_length (List.filter_sublist _)
        show (liveIndices t).length = (List.range t.next).length
        rw [← wf.size_eq, List.length_range]
        exact hpk
      have hmem : i ∈ liveIndices t := by
        rw [hrange]
        exact hi
      have h2 := (mem_liveIndices.mp hmem).2
      cases hk : (bucketAt t i).key with
      | none => rw [hk] at h2; cases h2
      | some k0 => simp [DS_HTABLE_BUCKET_DELETED, hk]
    · intro hall
      show t.size = t.next
      rw [wf.size_eq]
      have hrange : liveIndices t = List.range t.next := by
        rw [liveIndices]
        apply List.filter_eq_self.mpr
        intro i hi
        have hmem : bucketAt t i ∈ t.buckets.take t.next := by
          rw [take_next_eq t wf.next_le_buckets]
          exact List.mem_map.mpr ⟨i, hi, rfl⟩
        simpa using hall _ hmem
      rw [hrange, List.length_range]
  refine ⟨⟨wf.size_le_next, wf.cap_min, wf.cap_pow, hpacked_iff⟩,
    wf_new hf, wf_put wf k v, remove_spec wf k, hclone, ?_, ?_, ?_, ?_, ?_, ?_⟩
  · exact wf_foldl_put (htable_pairs u) hclone
  · exact (from_pairs_spec hf _
      ((keys_nodup wf).sublist ((List.filter_sublist _).map Prod.fst))).1
  · exact (from_pairs_spec hf _
      ((keys_nodup wf).sublist ((List.filter_sublist _).map Prod.fst))).1
  · refine (from_pairs_spec hf _ ?_).1
    rw [List.map_append]
    refine List.Nodup.append
      ((keys_nodup wf).sublist ((List.filter_sublist _).map Prod.fst))
      ((keys_nodup wfu).sublist ((List.filter_sublist _).map Prod.fst)) ?_
    intro k0 hk1 hk2
    obtain ⟨p, hp, rfl⟩ := List.mem_map.mp hk1
    obtain ⟨q, hq, hqk⟩ := List.mem_map.mp hk2
    obtain ⟨hpmem, hpb⟩ := List.mem_filter.mp hp
    obtain ⟨hqmem, _⟩ := List.mem_filter.mp hq
    have hmem : p.1 ∈ htable_keys u := List.mem_map.mpr ⟨q, hqmem, hqk⟩
    have htrue := (has_key_iff_mem_keys wfu).mpr hmem
    rw [htrue] at hpb
    simp at hpb
  · refine (from_pairs_spec hf _ ?_).1
    exact (keys_nodup wf).sublist
      (((List.take_sublist _ _).trans (List.drop_sublist _ _)).map Prod.fst)
  · exact (from_pairs_spec hf l hnd).1

/-- Witness for C8 at concrete tables, key, value, pair list and slice
bounds. -/
theorem operations_preserve_invariants_witness :
    WF scenario_hash (ds_htable_new String Nat) ∧
    WF scenario_hash (ds_htable_put scenario_hash (ds_htable_new String Nat) "x" 7) ∧
    ([("y", 2)].map Prod.fst).Nodup ∧
    (((ds_htable_new String Nat).size ≤ (ds_htable_new String Nat).next ∧
      DS_HTABLE_MIN_CAPACITY ≤ (ds_htable_new String Nat).capacity ∧
      (∃ m, (ds_htable_new String Nat).capacity = 2 ^ m) ∧
      (DS_HTABLE_IS_PACKED (ds_htable_new String Nat) ↔
        ∀ b ∈ (ds_htable_new String Nat).buckets.take (ds_htable_new String Nat).next,
          ¬ DS_HTABLE_BUCKET_DELETED b)) ∧
     WF scenario_hash (ds_htable_new String Nat) ∧
     WF scenario_hash (ds_htable_put scenario_hash (ds_htable_new String Nat) "x" 7) ∧
     WF scenario_hash (ds_htable_remove scenario_hash (ds_htable_new String Nat) "x").1 ∧
     WF scenario_hash (ds_htable_clone scenario_hash (ds_htable_new String Nat)) ∧
     WF scenario_hash (ds_htable_merge scenario_hash (ds_htable_new String Nat)
       (ds_htable_put scenario_hash (ds_htable_new String Nat) "x" 7)) ∧
     WF scenario_hash (ds_htable_diff scenario_hash (ds_htable_new String Nat)
       (ds_htable_put scenario_hash (ds_htable_new String Nat) "x" 7)) ∧
     WF scenario_hash (ds_htable_intersect scenario_hash (ds_htable_new String Nat)
       (ds_htable_put scenario_hash (ds_htable_new String Nat) "x" 7)) ∧
     WF scenario_hash (ds_htable_xor scenario_hash (ds_htable_new String Nat)
       (ds_htable_put scenario_hash (ds_htable_new String Nat) "x" 7)) ∧
     WF scenario_hash (ds_htable_slice scenario_hash (ds_htable_new String Nat) 0 1) ∧
     WF scenario_hash (ds_htable_from_pairs scenario_hash [("y", 2)])) :=
  ⟨wf_new scenario_hash,
   wf_put (wf_new scenario_hash) "x" 7,
   by decide,
   operations_preserve_invariants (wf_new scenario_hash)
     (wf_put (wf_new scenario_hash) "x" 7) "x" 7 [("y", 2)] (by decide) 0 1⟩

/-! ## C1: the amended remove-then-reinsert law, universally -/

/-- When the chain walk by key finds an index, the removal walk finds the
same index (with some predecessor information). -/
theorem chain_find_prev_of_find [DecidableEq α] {B : List (ds_htable_bucket α β)}
    {k : α} :
    ∀ {L : List Nat} {i : Nat} (prev : Option Nat),
      chain_find B k L = some i →
      ∃ pv, chain_find_prev B k L prev = some (i, pv)
  | [], _, _, h => by cases h
  | j :: L, i, prev, h => by
    by_cases hkj : (B.getD j default).key = some k
    · have hj : chain_find B k (j :: L) = some j := by
        rw [chain_find]
        exact List.find?_cons_of_pos _ (decide_eq_true hkj)
      have hij : i = j := by
        rw [h] at hj
        exact Option.some_inj.mp hj
      subst hij
      refine ⟨prev, ?_⟩
      rw [chain_find_prev, if_pos hkj]
    · have hrest : chain_find B k L = some i := by
        rw [chain_find] at h ⊢
        rwa [@List.find?_cons_of_neg Nat
          (fun i => decide ((B.getD i default).key = some k)) j L
          (fun hc => hkj (of_decide_eq_true hc))] at h
      obtain ⟨pv, hpv⟩ := chain_find_prev_of_find (some j) hrest
      refine ⟨pv, ?_⟩
      rw [chain_find_prev, if_neg hkj]
      exact hpv

/-- Structural description of `ds_htable_remove` on a found key: the bucket
at the found arena index is tombstoned, every other bucket keeps its key and
value, `size` drops by one, `next` and `capacity` are unchanged, and
`min_deleted` becomes the minimum of its old value and the freed index. -/
theorem remove_found_shape [DecidableEq α] {hf : α → Nat} {t : ds_htable α β}
    {k : α} {i : Nat} (wf : WF hf t)
    (hfind : ds_htable_lookup_by_key hf t k = some i) :
    WF hf (ds_htable_remove hf t k).1 ∧
    (ds_htable_remove hf t k).1.capacity = t.capacity ∧
    (ds_htable_remove hf t k).1.next = t.next ∧
    (ds_htable_remove hf t k).1.size = t.size - 1 ∧
    (ds_htable_remove hf t k).1.minDeleted = some (t.minDeleted.elim i (min i)) ∧
    (∀ j, j ≠ i →
      (bucketAt (ds_htable_remove hf t k).1 j).key = (bucketAt t j).key) ∧
    (∀ j, j ≠ i →
      (bucketAt (ds_htable_remove hf t k).1 j).value = (bucketAt t j).value) ∧
    (bucketAt (ds_htable_remove hf t k).1 i).key = none := by
  have hwfrem : WF hf (ds_htable_remove hf t k).1 := remove_spec wf k
  obtain ⟨hilive, hikey⟩ := (lookup_by_key_eq_some_iff wf).mp hfind
  have hi_lt : i < t.next := (mem_liveIndices.mp hilive).1
  have hi_len : i < t.buckets.length := Nat.lt_of_lt_of_le hi_lt wf.next_le_buckets
  have hslotlt : hf k &&& (t.capacity - 1) < t.capacity :=
    Nat.lt_of_le_of_lt Nat.and_le_right (Nat.sub_lt wf.cap_pos Nat.one_pos)
  obtain ⟨L, hL, hnd, hmem, hcomp⟩ := wf.chains (hf k &&& (t.capacity - 1)) hslotlt
  have hlenL : L.length < t.next + 1 :=
    Nat.lt_succ_of_le (chain_length_le hnd
      (fun j hj => (mem_liveIndices.mp (hmem j hj).1).1))
  have h0 : ds_htable_lookup_by_key hf t k = chain_find t.buckets k L :=
    lookup_loop_eq_chain_find hL hlenL
  have hcf : chain_find t.buckets k L = some i := h0.symm.trans hfind
  obtain ⟨pv, hpv⟩ := chain_find_prev_of_find none hcf
  have hswap : ds_htable_remove_loop t.buckets k (t.next + 1)
      (t.lookup.getD (hf k &&& (t.capacity - 1)) none) none =
      chain_find_prev t.buckets k L none :=
    remove_loop_eq_chain_find_prev hL hlenL none
  cases pv with
  | none =>
    have hrem := remove_eq_of_found_head (hswap.trans hpv)
    refine ⟨hwfrem, ?_, ?_, ?_, ?_, ?_, ?_, ?_⟩
    · rw [hrem]
    · rw [hrem]
    · rw [hrem]
    · rw [hrem]
    · intro j hj
      rw [hrem]
      show ((t.buckets.set i (DS_HTABLE_BUCKET_DELETE (bucketAt t i))).getD
        j default).key = (bucketAt t j).key
      rw [getD_set_ne (fun e => hj e.symm)]
      rfl
    · intro j hj
      rw [hrem]
      show ((t.buckets.set i (DS_HTABLE_BUCKET_DELETE (bucketAt t i))).getD
        j default).value = (bucketAt t j).value
      rw [getD_set_ne (fun e => hj e.symm)]
      rfl
    · rw [hrem]
      show ((t.buckets.set i (DS_HTABLE_BUCKET_DELETE (bucketAt t i))).getD
        i default).key = none
      rw [getD_set_self hi_len]
      rfl
  | some p =>
    obtain ⟨L₁, L₂, hLdec, _, _, hprev⟩ := chain_find_prev_spec hpv
    have hpL : p ∈ L := by
      rcases hprev with ⟨_, hpe⟩ | ⟨p', L₁p, hL1, hpe⟩
      · cases hpe
      · have hpp : p = p' := by injection hpe
        subst hpp
        rw [hLdec, hL1]
        exact List.mem_append_left _
          (List.mem_append_right _ (List.mem_cons_self _ _))
    have hplive : p ∈ liveIndices t := (hmem p hpL).1
    have hp_len : p < t.buckets.length :=
      Nat.lt_of_lt_of_le (mem_liveIndices.mp hplive).1 wf.next_le_buckets
    have hrem := remove_eq_of_found_prev (hswap.trans hpv)
    refine ⟨hwfrem, ?_, ?_, ?_, ?_, ?_, ?_, ?_⟩
    · rw [hrem]
    · rw [hrem]
    · rw [hrem]
    · rw [hrem]
    · intro j hj
      rw [hrem]
      show (((t.buckets.set p { bucketAt t p with
          chainNext := (bucketAt t i).chainNext }).set i
          (DS_HTABLE_BUCKET_DELETE (bucketAt t i))).getD j default).key =
        (bucketAt t j).key
      rw [getD_set_ne (fun e => hj e.symm)]
      by_cases hjp : j = p
      · subst hjp
        rw [getD_set_self hp_len]
      · rw [getD_set_ne (fun e => hjp e.symm)]
        rfl
    · intro j hj
      rw [hrem]
      show (((t.buckets.set p { bucketAt t p with
          chainNext := (bucketAt t i).chainNext }).set i
          (DS_HTABLE_BUCKET_DELETE (bucketAt t i))).getD j default).value =
        (bucketAt t j).value
      rw [getD_set_ne (fun e => hj e.symm)]
      by_cases hjp : j = p
      · subst hjp
        rw [getD_set_self hp_len]
      · rw [getD_set_ne (fun e => hjp e.symm)]
        rfl
    · rw [hrem]
      show (((t.buckets.set p { bucketAt t p with
          chainNext := (bucketAt t i).chainNext }).set i
          (DS_HTABLE_BUCKET_DELETE (bucketAt t i))).getD i default).key = none
      rw [getD_set_self (by rw [List.length_set]; exact hi_len)]
      rfl

/-- C1 (amended, universal): on any well-formed table with no pending
tombstone, `remove(k)` of a present key followed by `put(k, v)` reinserts `k`
at the reused lowest-tombstone arena slot — `k`'s old arena index, since that
removal left the only pending tombstone — not at the end of iteration order:
`size` and `next` return to their pre-remove values, `k` is found again at
its old arena index, and forward iteration yields the original entries in the
original order with only `k`'s value replaced by `v`. -/
theorem remove_reinsert_amended [DecidableEq α] {hf : α → Nat}
    {t : ds_htable α β} {k : α} {i : Nat} (wf : WF hf t)
    (hmd : t.minDeleted = none)
    (hfind : ds_htable_lookup_by_key hf t k = some i) (v : β) :
    (ds_htable_put hf (ds_htable_remove hf t k).1 k v).size = t.size ∧
    (ds_htable_put hf (ds_htable_remove hf t k).1 k v).next = t.next ∧
    ds_htable_lookup_by_key hf (ds_htable_put hf (ds_htable_remove hf t k).1 k v) k =
      some i ∧
    htable_pairs (ds_htable_put hf (ds_htable_remove hf t k).1 k v) =
      (htable_pairs t).map (fun p => if p.1 = k then (k, v) else p) := by
  obtain ⟨hilive, hikey⟩ := (lookup_by_key_eq_some_iff wf).mp hfind
  have hi_lt : i < t.next := (mem_liveIndices.mp hilive).1
  obtain ⟨hwfu, hucap, hunext, husize, humd0, hukeys, huvals, hudel⟩ :=
    remove_found_shape wf hfind
  set u := (ds_htable_remove hf t k).1 with hu
  have humd : u.minDeleted = some i := by
    rw [humd0, hmd]
    rfl
  have hfindu : ds_htable_lookup_by_key hf u k = none := by
    rw [lookup_by_key_eq_none_iff hwfu]
    intro j hj hkj
    by_cases hji : j = i
    · subst hji
      rw [hudel] at hkj
      cases hkj
    · rw [hukeys j hji] at hkj
      have hjlt : j ∈ liveIndices t := by
        have h1 := mem_liveIndices.mp hj
        refine mem_liveIndices.mpr ⟨by rw [← hunext]; exact h1.1, ?_⟩
        rw [← hukeys j hji]
        exact h1.2
      exact hji (wf.key_uniq j hjlt i hilive (hkj.trans hikey.symm))
  obtain ⟨hwfw, hwsize, hwnext, _⟩ := put_miss_reuse_spec hwfu hfindu humd v
  set w := ds_htable_put hf u k v with hw
  have hsize_pos : 0 < t.size := by
    rw [wf.size_eq]
    exact List.length_pos_of_mem hilive
  have hweq := put_eq_of_miss_reuse hfindu humd v
  have hilen_u : i < u.buckets.length :=
    Nat.lt_of_lt_of_le (by rw [hunext]; exact hi_lt) hwfu.next_le_buckets
  have hbw : ∀ j, bucketAt w j =
      if j = i then
        ({ key := some k, value := some v, hash := hf k,
           chainNext := u.lookup.getD (hf k &&& (u.capacity - 1)) none } :
          ds_htable_bucket α β)
      else bucketAt u j := by
    intro j
    rw [hw, hweq]
    by_cases hj : j = i
    · subst hj
      rw [if_pos rfl]
      show (u.buckets.set j _).getD j default = _
      exact getD_set_self hilen_u _ _
    · rw [if_neg hj]
      show (u.buckets.set i _).getD j default = u.buckets.getD j default
      exact getD_set_ne (fun e => hj e.symm) _ _
  have hwkey_i : (bucketAt w i).key = some k := by
    rw [hbw i, if_pos rfl]
  have hwval_i : (bucketAt w i).value = some v := by
    rw [hbw i, if_pos rfl]
  have hkeys_w : ∀ j, j ≠ i → (bucketAt w j).key = (bucketAt t j).key := by
    intro j hj
    rw [hbw j, if_neg hj]
    exact hukeys j hj
  have hvals_w : ∀ j, j ≠ i → (bucketAt w j).value = (bucketAt t j).value := by
    intro j hj
    rw [hbw j, if_neg hj]
    exact huvals j hj
  refine ⟨by omega, hwnext.trans hunext, ?_, ?_⟩
  · have hilive_w : i ∈ liveIndices w := mem_liveIndices.mpr
      ⟨by rw [hwnext, hunext]; exact hi_lt, by rw [hwkey_i]; rfl⟩
    exact (lookup_by_key_eq_some_iff hwfw).mpr ⟨hilive_w, hwkey_i⟩
  · have hlive_eq : liveIndices w = liveIndices t := by
      rw [liveIndices, liveIndices, hwnext, hunext]
      apply List.filter_congr
      intro j _
      by_cases hj : j = i
      · subst hj
        rw [DS_HTABLE_BUCKET_DELETED, DS_HTABLE_BUCKET_DELETED, hwkey_i, hikey]
      · rw [DS_HTABLE_BUCKET_DELETED, DS_HTABLE_BUCKET_DELETED, hkeys_w j hj]
    obtain ⟨vi, hvi⟩ := Option.isSome_iff_exists.mp (wf.live_value i hilive)
    rw [htable_pairs_eq w hwfw.next_le_buckets,
      htable_pairs_eq t wf.next_le_buckets, hlive_eq, List.map_filterMap]
    apply List.filterMap_congr
    intro j hjmem
    by_cases hj : j = i
    · subst hj
      rw [hwkey_i, hwval_i, hikey, hvi]
      simp
    · rw [hkeys_w j hj, hvals_w j hj]
      cases hkj : (bucketAt t j).key with
      | none => rfl
      | some k0 =>
        cases hvj : (bucketAt t j).value with
        | none => rfl
        | some v0 =>
          have hk0 : k0 ≠ k := by
            intro e
            subst e
            exact hj (wf.key_uniq j hjmem i hilive (hkj.trans hikey.symm))
          simp [hk0]

/-- Witness for the amended C1 law: insert a, b, c with 1, 2, 3, then remove
"b" and re-put "b" with value 4; "b" comes back at arena index 1 — its old
iteration position — and forward iteration yields (a,1),(b,4),(c,3). -/
theorem remove_reinsert_amended_witness :
    WF scenario_hash (ds_htable_from_pairs scenario_hash
      [("a", 1), ("b", 2), ("c", 3)]) ∧
    (ds_htable_from_pairs scenario_hash
      [("a", 1), ("b", 2), ("c", 3)]).minDeleted = none ∧
    ds_htable_lookup_by_key scenario_hash
      (ds_htable_from_pairs scenario_hash [("a", 1), ("b", 2), ("c", 3)]) "b" =
      some 1 ∧
    ((ds_htable_put scenario_hash
        (ds_htable_remove scenario_hash
          (ds_htable_from_pairs scenario_hash [("a", 1), ("b", 2), ("c", 3)])
          "b").1 "b" 4).size =
      (ds_htable_from_pairs scenario_hash [("a", 1), ("b", 2), ("c", 3)]).size ∧
     (ds_htable_put scenario_hash
        (ds_htable_remove scenario_hash
          (ds_htable_from_pairs scenario_hash [("a", 1), ("b", 2), ("c", 3)])
          "b").1 "b" 4).next =
      (ds_htable_from_pairs scenario_hash [("a", 1), ("b", 2), ("c", 3)]).next ∧
     ds_htable_lookup_by_key scenario_hash
       (ds_htable_put scenario_hash
         (ds_htable_remove scenario_hash
           (ds_htable_from_pairs scenario_hash [("a", 1), ("b", 2), ("c", 3)])
           "b").1 "b" 4) "b" = some 1 ∧
     htable_pairs (ds_htable_put scenario_hash
        (ds_htable_remove scenario_hash
          (ds_htable_from_pairs scenario_hash [("a", 1), ("b", 2), ("c", 3)])
          "b").1 "b" 4) =
      (htable_pairs (ds_htable_from_pairs scenario_hash
        [("a", 1), ("b", 2), ("c", 3)])).map
        (fun p => if p.1 = "b" then ("b", 4) else p)) :=
  ⟨(from_pairs_spec scenario_hash [("a", 1), ("b", 2), ("c", 3)] (by decide)).1,
   by decide,
   by decide,
   remove_reinsert_amended
     (from_pairs_spec scenario_hash [("a", 1), ("b", 2), ("c", 3)] (by decide)).1
     (by decide)
     (show ds_htable_lookup_by_key scenario_hash
       (ds_htable_from_pairs scenario_hash [("a", 1), ("b", 2), ("c", 3)]) "b" =
       some 1 by decide)
     4⟩
